import Mathlib

/-!
# A verification development for the ResumeTex optimization backend

This file embeds, as Lean definitions, the parts of the Python backend that
the specification's testable claims are about:

* `services/tex_parser.py` — the `LaTeXParser` class: structural validation
  (`parse_latex`), markdown-fence and whitespace cleaning
  (`clean_latex_content`), and input/output structure comparison
  (`validate_optimization_result`);
* `services/pdf_generator.py` — `PDFGenerator._sanitize_filename`;
* `services/cache_service.py` — `CacheService.get` / `CacheService.set` with
  a Redis tier that may be disconnected, working, or raising;
* `routes/optimize.py` — the submit handler `optimize_resume`, the background
  pipeline `process_optimization_background`, the cached-path compile task
  `generate_pdf_background`, `save_to_history`, and the status/result reads.

Texts are modelled as `List Char`.  Python regular expressions are embedded as
executable recursive matchers that reproduce the behaviour (leftmost search,
lazy/greedy groups with backtracking) of the concrete patterns used by the
source, on the character classes the source uses; `\s` is modelled by the
ASCII whitespace characters, which is what the inputs of interest contain.
-/

namespace ResumeTex

/-- Python `\s` (ASCII range): space, tab, newline, carriage return,
vertical tab, form feed. -/
def isPySpace (c : Char) : Bool :=
  c = ' ' || c = '\t' || c = '\n' || c = '\r' || c = '\x0b' || c = '\x0c'

/-- `l.strip()` for the ASCII whitespace class. -/
def pyStrip (l : List Char) : List Char :=
  ((l.dropWhile isPySpace).reverse.dropWhile isPySpace).reverse

/-- Match a literal pattern at the head of the input, returning the rest. -/
def dropLit : List Char → List Char → Option (List Char)
  | [], r => some r
  | _ :: _, [] => none
  | p :: ps, c :: cs => if c = p then dropLit ps cs else none

/-- ASCII lowercasing, as used by `str.lower()` on the inputs of interest. -/
def toLowerAscii (c : Char) : Char :=
  if 'A' ≤ c && c ≤ 'Z' then Char.ofNat (c.toNat + 32) else c

/-- Case-insensitive literal match (for patterns compiled with
`re.IGNORECASE`). -/
def dropLitCI : List Char → List Char → Option (List Char)
  | [], r => some r
  | _ :: _, [] => none
  | p :: ps, c :: cs =>
    if toLowerAscii c = toLowerAscii p then dropLitCI ps cs else none

/-- `re.search`-style scan: try the position predicate at every suffix. -/
def searchAt (p : List Char → Bool) : List Char → Bool
  | [] => p []
  | l@(_ :: t) => p l || searchAt p t

/-- Substring containment, Python's `pat in s`. -/
def containsLit (pat : List Char) (l : List Char) : Bool :=
  searchAt (fun s => (dropLit pat s).isSome) l

/-! ## tex_parser.py — `LaTeXParser` -/

/-- The tail `\{document\}` of the begin/end anchors after the command word:
optional whitespace, then the literal `{document}`. -/
def braceDocumentTail (l : List Char) : Bool :=
  (dropLit "{document}".data (l.dropWhile isPySpace)).isSome

/-- `r'\\begin\s*\{document\}'` matched at the current position. -/
def beginDocAt (l : List Char) : Bool :=
  match dropLit "\\begin".data l with
  | some r => braceDocumentTail r
  | none => false

/-- `r'\\end\s*\{document\}'` matched at the current position. -/
def endDocAt (l : List Char) : Bool :=
  match dropLit "\\end".data l with
  | some r => braceDocumentTail r
  | none => false

/-- `re.search(r'\\begin\s*\{document\}', l)` as a Boolean. -/
def has_begin_document (l : List Char) : Bool := searchAt beginDocAt l

/-- `re.search(r'\\end\s*\{document\}', l)` as a Boolean. -/
def has_end_document (l : List Char) : Bool := searchAt endDocAt l

/-- For `\{(.*?)\}` right after the class-option bracket: expect `{`, then the
lazy group runs to the first `}`; `.` does not match a newline. -/
def grabToBrace : List Char → Option (List Char)
  | [] => none
  | c :: t =>
    if c = '}' then some []
    else if c = '\n' then none
    else (grabToBrace t).map (c :: ·)

/-- `\s*\{(.*?)\}` after the closing `]` of the document-class options. -/
def docClassCont (l : List Char) : Option (List Char) :=
  match l.dropWhile isPySpace with
  | '{' :: t => grabToBrace t
  | _ => none

/-- Inside `\[.*?\]` with backtracking: the lazy option group (which may not
contain a newline) extends to the first `]` whose continuation
`\s*\{(.*?)\}` succeeds. -/
def docClassBracketTail : List Char → Option (List Char)
  | [] => none
  | c :: t =>
    if c = '\n' then none
    else if c = ']' then
      match docClassCont t with
      | some g => some g
      | none => docClassBracketTail t
    else docClassBracketTail t

/-- `r'\\documentclass\s*\[.*?\]\s*\{(.*?)\}'` matched at the current
position, returning the class-name group. -/
def docClassAt (l : List Char) : Option (List Char) :=
  match dropLit "\\documentclass".data l with
  | some r =>
    match r.dropWhile isPySpace with
    | '[' :: t => docClassBracketTail t
    | _ => none
  | none => none

/-- Leftmost `re.search` for the document-class pattern. -/
def findDocClass : List Char → Option (List Char)
  | [] => none
  | l@(_ :: t) =>
    match docClassAt l with
    | some g => some g
    | none => findDocClass t

/-- `LaTeXParser._extract_document_class`: first match's group, else
`'unknown'`. -/
def extract_document_class (l : List Char) : List Char :=
  (findDocClass l).getD "unknown".data

/-- `\s*\{([^}]+)\}` after the (case-insensitive) `section` word: the greedy
group is the maximal run of non-`}` characters, which must be non-empty and
followed by `}`. -/
def sectionTail (r : List Char) : Option (List Char) :=
  match r.dropWhile isPySpace with
  | '{' :: t =>
    let name := t.takeWhile (fun c => c ≠ '}')
    if name.isEmpty then none
    else if (t.drop name.length).head? = some '}' then some name else none
  | _ => none

/-- `r'\\(sub)?section\s*\{([^}]+)\}'` (IGNORECASE) at the current position,
returning the raw section-name group; the optional `sub` branch is preferred
and backtracked on failure, as in the Python engine. -/
def sectionNameAt : List Char → Option (List Char)
  | '\\' :: t =>
    (match dropLitCI "sub".data t with
     | some r =>
       match dropLitCI "section".data r with
       | some r2 => sectionTail r2
       | none => none
     | none => none) <|>
    (match dropLitCI "section".data t with
     | some r => sectionTail r
     | none => none)
  | _ => none

/-- Leftmost search for a section command within one line. -/
def findSectionName : List Char → Option (List Char)
  | [] => none
  | l@(_ :: t) => sectionNameAt l <|> findSectionName t

/-- `LaTeXParser._extract_sections`, restricted to the section names the
claims consume: the input is split on newlines and each line is searched for
the section pattern; a match contributes `group(2).strip()`.  (The content
and line-span fields of `LaTeXSection` are not used by any claim.) -/
def extract_section_names (l : List Char) : List (List Char) :=
  (l.splitOn '\n').filterMap (fun line => (findSectionName line).map pyStrip)

/-- `LaTeXParser._validate_structure`, errors half: one error message per
missing mandatory anchor. -/
def structure_errors (l : List Char) : List (List Char) :=
  (if (findDocClass l).isSome then []
   else ["Missing \\documentclass declaration".data]) ++
  (if has_begin_document l then [] else ["Missing \\begin{document}".data]) ++
  (if has_end_document l then [] else ["Missing \\end{document}".data])

/-- `LaTeXParser._validate_structure`, warnings half. -/
def structure_warnings (l : List Char) : List (List Char) :=
  if !containsLit "\\maketitle".data l && !containsLit "\\name".data l then
    ["No title or name command found".data]
  else []

/-- The `common_sections` list of `LaTeXParser.__init__`. -/
def common_sections : List (List Char) :=
  ["experience", "education", "skills", "projects", "summary",
   "objective", "achievements", "certifications", "publications",
   "awards", "languages", "interests", "contact", "personal"].map String.data

/-- `LaTeXParser._check_resume_sections`: warnings about missing essential or
common resume sections.  (Python iterates a hash set for the message text;
the message content is fixed here since no claim depends on it.) -/
def resume_section_warnings (secs : List (List Char)) : List (List Char) :=
  let found := secs.map (fun s => pyStrip (s.map toLowerAscii))
  let essential := ["experience", "education", "skills"].map String.data
  let missing := essential.filter (fun e => !found.contains e)
  (if missing.isEmpty then [] else ["Missing essential sections".data]) ++
  (if (common_sections.filter (fun c => found.contains c)).length < 3 then
     ["Less than 3 common resume sections found".data]
   else [])

/-- `LaTeXParseResult`, restricted to the fields the claims consume
(the `packages` list is consumed by nothing). -/
structure LaTeXParseResult where
  is_valid : Bool
  sections : List (List Char)
  document_class : List Char
  errors : List (List Char)
  warnings : List (List Char)
deriving Repr, DecidableEq

/-- `LaTeXParser.parse_latex`: structural validation, document-class and
section extraction; `is_valid` iff the error list is empty. -/
def parse_latex (l : List Char) : LaTeXParseResult :=
  let errors := structure_errors l
  let secs := extract_section_names l
  { is_valid := errors.isEmpty
    sections := secs
    document_class := extract_document_class l
    errors := errors
    warnings := structure_warnings l ++ resume_section_warnings secs }

/-- Statistics block of `validate_optimization_result`. -/
structure ValidationStats where
  original_length : Nat
  optimized_length : Nat
  length_change : Int
  sections_original : Nat
  sections_optimized : Nat
deriving Repr, DecidableEq

/-- Return value of `validate_optimization_result`. -/
structure OptValidation where
  is_valid : Bool
  structure_preserved : Bool
  issues : List (List Char)
  statistics : ValidationStats
deriving Repr, DecidableEq

/-- The set difference `original_section_names - optimized_section_names`
over lowercased names (first-occurrence order standing in for Python's
hash-set order, which no claim depends on). -/
def removed_sections (o p : List Char) : List (List Char) :=
  let os := ((extract_section_names o).map (·.map toLowerAscii)).eraseDups
  let ps := (extract_section_names p).map (·.map toLowerAscii)
  os.filter (fun n => !ps.contains n)

/-- `LaTeXParser.validate_optimization_result`: re-parses both texts;
`is_valid` is the parse validity of the optimized text; a changed document
class or removed sections are appended to `issues`; removed sections and
parse errors of the optimized text clear `structure_preserved`. -/
def validate_optimization_result (o p : List Char) : OptValidation :=
  let orr := parse_latex o
  let pr := parse_latex p
  let removed := removed_sections o p
  let issues :=
    (if orr.document_class ≠ pr.document_class then
       ["Document class changed: ".data ++ orr.document_class ++ " → ".data ++
         pr.document_class]
     else []) ++
    (if removed.isEmpty then []
     else ["Sections removed: ".data ++ (removed.intersperse ", ".data).flatten]) ++
    pr.errors.map (fun e => "Compilation error: ".data ++ e)
  { is_valid := pr.is_valid
    structure_preserved := removed.isEmpty && pr.errors.isEmpty
    issues := issues
    statistics :=
      { original_length := o.length
        optimized_length := p.length
        length_change := (p.length : Int) - (o.length : Int)
        sections_original := orr.sections.length
        sections_optimized := pr.sections.length } }

/-! ## tex_parser.py — `clean_latex_content` and its helpers

The cleaning pipeline of `LaTeXParser.clean_latex_content`:
markdown-fence stripping, blank-line collapsing
(`re.sub(r'\n\s*\n\s*\n+', '\n\n', ...)`), per-line indentation removal
(`re.sub(r'^[ \t]+', '', ..., flags=re.MULTILINE)`), and
`_fix_common_issues` (command spacing, space runs, CRLF), followed by
`strip()`. -/

/-- `\s*$` under `re.MULTILINE`: the remainder is all whitespace, or its
whitespace prefix reaches a newline. -/
def wsNlTailOK (t : List Char) : Bool :=
  (t.takeWhile isPySpace).contains '\n' || t.all isPySpace

/-- The lazy `(.*?)\n`³backticks`\s*$` tail of the fence pattern under
`re.DOTALL`: the shortest body after which a `\n`-fence line closes the
match.  Returns the body group. -/
def fenceBody : List Char → Option (List Char)
  | [] => none
  | l@(c :: t) =>
    match dropLit "\n```".data l with
    | some r => if wsNlTailOK r then some [] else (fenceBody t).map (c :: ·)
    | none => (fenceBody t).map (c :: ·)

/-- Indices of `'\n'` within a character list. -/
def nlPositions (w : List Char) : List Nat :=
  (List.range w.length).filter (fun i => w.get? i = some '\n')

/-- `\s*\n` (greedy, with backtracking) followed by the fence body: try the
newlines of the maximal whitespace prefix, longest `\s*` first. -/
def fenceAfterLang (r1 : List Char) : Option (List Char) :=
  ((nlPositions (r1.takeWhile isPySpace)).reverse).findSome?
    (fun k => fenceBody (r1.drop (k + 1)))

/-- `re.match(r'^`³`(?:latex|tex)?\s*\n(.*?)\n`³`\s*$', s, DOTALL|MULTILINE)`:
the full-fence form of `_strip_markdown_fences`, applied to the stripped
input; alternatives tried in the engine's preference order. -/
def stripFencesFull (s : List Char) : Option (List Char) :=
  match dropLit "```".data s with
  | none => none
  | some r0 =>
    (match dropLit "latex".data r0 with
     | some r1 => fenceAfterLang r1
     | none => none) <|>
    (match dropLit "tex".data r0 with
     | some r1 => fenceAfterLang r1
     | none => none) <|>
    fenceAfterLang r0

/-- `LaTeXParser._strip_markdown_fences`: the full-fence regex first; else,
if the stripped text starts with a fence marker, drop a leading fence line
and a trailing bare fence line from the raw line split. -/
def strip_markdown_fences (x : List Char) : List Char :=
  let s := pyStrip x
  match stripFencesFull s with
  | some body => pyStrip body
  | none =>
    if (dropLit "```".data s).isSome then
      let lines := x.splitOn '\n'
      let lines1 :=
        match lines with
        | l0 :: rest =>
          if (dropLit "```".data (pyStrip l0)).isSome then rest else lines
        | [] => lines
      let lines2 :=
        match lines1.getLast? with
        | some ll => if pyStrip ll = "```".data then lines1.dropLast else lines1
        | none => lines1
      pyStrip (List.intercalate ['\n'] lines2)
    else x

/-- One maximal whitespace run under `re.sub(r'\n\s*\n\s*\n+', '\n\n', ...)`:
a run holding at least three newlines keeps its segments before the first
and after the last newline and collapses the middle to exactly two. -/
def collapseBlankRun (w : List Char) : List Char :=
  if 3 ≤ w.count '\n' then
    (w.takeWhile (fun c => c ≠ '\n')) ++ "\n\n".data ++
      ((w.reverse.takeWhile (fun c => c ≠ '\n')).reverse)
  else w

/-- Worker for `collapseBlankLines`; `acc` is the reversed whitespace run
currently being read. -/
def cbAux (acc : List Char) : List Char → List Char
  | [] => collapseBlankRun acc.reverse
  | c :: t =>
    if isPySpace c then cbAux (c :: acc) t
    else collapseBlankRun acc.reverse ++ c :: cbAux [] t

/-- `re.sub(r'\n\s*\n\s*\n+', '\n\n', ...)` over the whole text. -/
def collapseBlankLines (l : List Char) : List Char := cbAux [] l

/-- The `[ \t]` class of the indentation pattern. -/
def isIndentChar (c : Char) : Bool := c = ' ' || c = '\t'

/-- Worker for `stripIndent`; the flag records whether the scan sits at a
line start (string start or just after a newline, possibly with indentation
already dropped). -/
def siAux (atLineStart : Bool) : List Char → List Char
  | [] => []
  | c :: t =>
    if atLineStart && isIndentChar c then siAux true t
    else if c = '\n' then c :: siAux true t
    else c :: siAux false t

/-- `re.sub(r'^[ \t]+', '', ..., flags=re.MULTILINE)`. -/
def stripIndent (l : List Char) : List Char := siAux true l

/-- ASCII letters, the `[a-zA-Z]` class. -/
def isAsciiLetter (c : Char) : Bool :=
  ('a' ≤ c && c ≤ 'z') || ('A' ≤ c && c ≤ 'Z')

/-- One attempted match of `\\([a-zA-Z]+)\s*\{` just after a backslash:
the greedy letter group (backtracking into it can never succeed), the
whitespace run, and the opening brace; returns the letters and the text
after the brace. -/
def fixCmdStep (t : List Char) : Option (List Char × List Char) :=
  let letters := t.takeWhile isAsciiLetter
  if letters.isEmpty then none
  else
    match (t.drop letters.length).dropWhile isPySpace with
    | '{' :: r3 => some (letters, r3)
    | _ => none

/-- A successful `fixCmdStep` consumes at least the letter group and the
brace, so the remainder is strictly shorter.  (Stated among the definitions
because the fuel-elimination lemmas of `fixCmds` depend on it.) -/
theorem fixCmdStep_length {t w r3 : List Char}
    (h : fixCmdStep t = some (w, r3)) : r3.length < t.length := by
  unfold fixCmdStep at h
  by_cases he : (t.takeWhile isAsciiLetter).isEmpty
  · simp [he] at h
  · simp only [he, if_false] at h
    have hlen : ((t.drop (t.takeWhile isAsciiLetter).length).dropWhile isPySpace).length
        ≤ t.length - (t.takeWhile isAsciiLetter).length :=
      le_trans (List.dropWhile_sublist isPySpace).length_le (by simp)
    have hpos : 0 < (t.takeWhile isAsciiLetter).length := by
      cases hl : t.takeWhile isAsciiLetter with
      | nil => rw [hl] at he; simp at he
      | cons a b => simp [hl]
    rcases h' : (t.drop (t.takeWhile isAsciiLetter).length).dropWhile isPySpace with
      _ | ⟨c, r⟩
    · rw [h'] at h; simp at h
    · rw [h'] at h
      rw [h'] at hlen
      by_cases hc : c = '{'
      · subst hc
        simp at h
        obtain ⟨_, hr⟩ := h
        subst hr
        simp at hlen
        omega
      · simp [hc] at h

/-- Fuel-indexed worker for the command-spacing rewrite; the fuel dominates
the input length, making the recursion structural (and so kernel-reducible
for concrete inputs). -/
def fixCmdsF : Nat → List Char → List Char
  | _, [] => []
  | 0, l => l
  | fuel + 1, c :: t =>
    if c = '\\' then
      match fixCmdStep t with
      | some (w, r3) => c :: (w ++ '{' :: fixCmdsF fuel r3)
      | none => c :: fixCmdsF fuel t
    else c :: fixCmdsF fuel t

/-- `re.sub(r'\\([a-zA-Z]+)\s*\{', r'\\\1{', ...)`: delete whitespace between
a command word and its opening brace; scanning resumes after the brace. -/
def fixCmds (l : List Char) : List Char := fixCmdsF l.length l

/-- `fixCmdsF` on the empty list. -/
theorem fixCmdsF_nil (fuel : Nat) : fixCmdsF fuel [] = [] := by
  cases fuel <;> rfl

/-- Any two sufficient fuels produce the same result. -/
theorem fixCmdsF_congr (fuel : Nat) : ∀ (l : List Char) (fuel' : Nat),
    l.length ≤ fuel → l.length ≤ fuel' → fixCmdsF fuel l = fixCmdsF fuel' l := by
  induction fuel with
  | zero =>
    intro l fuel' h _
    have hl : l = [] := List.eq_nil_of_length_eq_zero (Nat.le_zero.mp h)
    subst hl
    rw [fixCmdsF_nil, fixCmdsF_nil]
  | succ k ih =>
    intro l fuel' h h'
    cases l with
    | nil => rw [fixCmdsF_nil, fixCmdsF_nil]
    | cons c t =>
      cases fuel' with
      | zero => simp at h'
      | succ k' =>
        simp only [fixCmdsF]
        by_cases hc : c = '\\'
        · rw [if_pos hc, if_pos hc]
          cases hstep : fixCmdStep t with
          | none =>
            rw [ih t k' (by simpa using h) (by simpa using h')]
          | some wr =>
            obtain ⟨w, r3⟩ := wr
            have hl := fixCmdStep_length hstep
            have ht : t.length + 1 ≤ k + 1 := by simpa using h
            have ht' : t.length + 1 ≤ k' + 1 := by simpa using h'
            dsimp only
            rw [ih r3 k' (by omega) (by omega)]
        · rw [if_neg hc, if_neg hc,
            ih t k' (by simpa using h) (by simpa using h')]

/-- Unfolding equation of `fixCmds` at a backslash with a matching step. -/
theorem fixCmds_cons_step {t w r3 : List Char}
    (hstep : fixCmdStep t = some (w, r3)) :
    fixCmds ('\\' :: t) = '\\' :: (w ++ '{' :: fixCmds r3) := by
  have hl := fixCmdStep_length hstep
  show fixCmdsF (t.length + 1) ('\\' :: t) = _
  simp only [fixCmdsF, if_pos rfl, hstep]
  rw [fixCmdsF_congr t.length r3 r3.length (by omega) (le_refl _)]
  rfl

/-- Unfolding equation of `fixCmds` at a backslash with no matching step. -/
theorem fixCmds_cons_nostep {t : List Char} (hstep : fixCmdStep t = none) :
    fixCmds ('\\' :: t) = '\\' :: fixCmds t := by
  show fixCmdsF (t.length + 1) ('\\' :: t) = _
  simp only [fixCmdsF, hstep]
  split <;> rfl

/-- Unfolding equation of `fixCmds` at a non-backslash character. -/
theorem fixCmds_cons_other {c : Char} {t : List Char} (hc : c ≠ '\\') :
    fixCmds (c :: t) = c :: fixCmds t := by
  show fixCmdsF (t.length + 1) (c :: t) = _
  simp only [fixCmdsF, if_neg hc]
  rfl

/-- Worker for `collapseSpaces`; the flag records whether the previous
character belonged to a space run already emitted. -/
def csAux (inRun : Bool) : List Char → List Char
  | [] => []
  | c :: t =>
    if c = ' ' then
      if inRun then csAux true t else ' ' :: csAux true t
    else c :: csAux false t

/-- `re.sub(r' +', ' ', ...)`. -/
def collapseSpaces (l : List Char) : List Char := csAux false l

/-- `re.sub(r'\r\n', '\n', ...)`: one non-overlapping left-to-right pass. -/
def crlfFix : List Char → List Char
  | [] => []
  | [c] => [c]
  | c :: d :: t =>
    if c = '\r' ∧ d = '\n' then '\n' :: crlfFix t else c :: crlfFix (d :: t)

/-- `LaTeXParser._fix_common_issues`: command spacing, space runs, CRLF. -/
def fix_common_issues (l : List Char) : List Char :=
  crlfFix (collapseSpaces (fixCmds l))

/-- `LaTeXParser.clean_latex_content`: fences, blank-line collapse,
indentation, `_fix_common_issues`, final `strip()`. -/
def clean_latex_content (x : List Char) : List Char :=
  pyStrip (fix_common_issues (stripIndent (collapseBlankLines
    (strip_markdown_fences x))))

/-! ### Normal forms of the cleaning pipeline

Each pass of `clean_latex_content` establishes a shape its own second run
leaves untouched; the shapes are phrased as absence of a bad decomposition
so that they transfer along infixes and whitespace deletions. -/

/-- No whitespace segment of the text holds three or more newlines (the
shape `re.sub(r'\n\s*\n\s*\n+', ...)` establishes). -/
def NoTriple (l : List Char) : Prop :=
  ∀ a w b, l = a ++ w ++ b → w.all isPySpace = true → w.count '\n' ≤ 2

/-- No space or tab directly follows a newline (the shape the
`^[ \t]+`-removal establishes, save for the line at the very start). -/
def NoIndentPair (l : List Char) : Prop :=
  ∀ a c b, l = a ++ '\n' :: c :: b → isIndentChar c = false

/-- No command word is separated from its opening brace by whitespace (the
shape the `\\([a-zA-Z]+)\s*\{` rewrite establishes). -/
def NoCmdGap (l : List Char) : Prop :=
  ∀ a w s v, l = a ++ '\\' :: (w ++ s ++ '{' :: v) → w ≠ [] →
    w.all isAsciiLetter = true → s.all isPySpace = true → s = []

/-- No two adjacent spaces (the shape `re.sub(r' +', ' ', ...)`
establishes). -/
def NoTwoSpace (l : List Char) : Prop :=
  ∀ a b, l = a ++ ' ' :: ' ' :: b → False

/-- `v` arises from `u` by deleting whitespace characters (every pass after
the fence stripping relates its input and output this way). -/
inductive WsDel : List Char → List Char → Prop
  | nil : WsDel [] []
  | keep (c : Char) {u v : List Char} : WsDel u v → WsDel (c :: u) (c :: v)
  | drop {c : Char} {u v : List Char} (hc : isPySpace c = true) :
      WsDel u v → WsDel (c :: u) v

/-- `v` arises from `u` by deleting spaces, each directly preceded by a
kept space — the deletion discipline of `re.sub(r' +', ' ', ...)`.  The
flag records whether the previously kept character was a space. -/
inductive SpDel : Bool → List Char → List Char → Prop
  | nil (b : Bool) : SpDel b [] []
  | keep (b : Bool) (c : Char) {u v : List Char} :
      SpDel (c == ' ') u v → SpDel b (c :: u) (c :: v)
  | drop {u v : List Char} (h : SpDel true u v) : SpDel true (' ' :: u) v

/-! ## pdf_generator.py — `PDFGenerator._sanitize_filename` -/

/-- The unsafe-character class `[<>:"/\\|?*]` of `_sanitize_filename`. -/
def forbiddenChar (c : Char) : Bool :=
  c = '<' || c = '>' || c = ':' || c = '"' || c = '/' || c = '\\' ||
  c = '|' || c = '?' || c = '*'

/-- The strip class of `filename.strip('._')`. -/
def isDotUnderscore (c : Char) : Bool := c = '.' || c = '_'

/-- Worker for `re.sub(r'\s+', '_', ...)`: each maximal whitespace run
becomes a single underscore. -/
def cwAux (inRun : Bool) : List Char → List Char
  | [] => []
  | c :: t =>
    if isPySpace c then
      if inRun then cwAux true t else '_' :: cwAux true t
    else c :: cwAux false t

/-- First reassignment of `_sanitize_filename`:
`re.sub(r'[<>:"/\\|?*]', '_', filename)`. -/
def sanitizeReplaced (l : List Char) : List Char :=
  l.map (fun c => if forbiddenChar c then '_' else c)

/-- Second reassignment: `re.sub(r'\s+', '_', filename)`. -/
def sanitizeCollapsed (l : List Char) : List Char :=
  cwAux false (sanitizeReplaced l)

/-- Third reassignment: `filename.strip('._')`. -/
def sanitizeStripped (l : List Char) : List Char :=
  (((sanitizeCollapsed l).dropWhile isDotUnderscore).reverse.dropWhile
    isDotUnderscore).reverse

/-- Fourth reassignment: `filename[:50]` when longer than 50. -/
def sanitizeCut (l : List Char) : List Char :=
  if 50 < (sanitizeStripped l).length then (sanitizeStripped l).take 50
  else sanitizeStripped l

/-- `PDFGenerator._sanitize_filename`: replace unsafe characters by `_`,
collapse whitespace runs to `_`, strip leading/trailing `.`/`_`, cut to 50
characters, and fall back to `resume` when empty. -/
def sanitize_filename (l : List Char) : List Char :=
  if (sanitizeCut l).isEmpty then "resume".data else sanitizeCut l

/-! ## cache_service.py — `CacheService.get` / `CacheService.set`

The two-tier cache: a networked Redis tier (optional, possibly raising at
call time) in front of an in-process dictionary with expiry timestamps.
JSON (de)serialisation is modelled as the identity on the stored text. -/

/-- An entry of `CacheService.memory_cache`. -/
structure MemEntry where
  data : List Char
  expires_at : Nat
deriving Repr, DecidableEq

/-- Behaviour of the Redis client at one call: serve a lookup table, or
raise (connection refused, timeout, …). -/
inductive RedisBehavior where
  | works (lookup : List Char → Option (List Char))
  | raises (msg : List Char)

/-- The fields of `CacheService` the claims consume. -/
structure CacheState where
  redis_connected : Bool
  memory : List (List Char × MemEntry)

/-- Result of a block of Python code: a value, or an exception in flight. -/
inductive CacheOutcome (α : Type) where
  | ok (a : α)
  | raised (msg : List Char)
deriving Repr, DecidableEq

/-- `CacheService.default_ttl` (24 h, seconds). -/
def default_ttl : Nat := 24 * 60 * 60

/-- `CacheService.pdf_ttl` (1 h, seconds). -/
def pdf_ttl : Nat := 60 * 60

/-- The memory-tier half of `CacheService.get`: consult the dictionary and
evict an expired entry. -/
def cacheGetMemory (st : CacheState) (now : Nat) (key : List Char) :
    CacheOutcome (Option (List Char)) × CacheState :=
  match st.memory.lookup key with
  | some e =>
    if now < e.expires_at then (.ok (some e.data), st)
    else (.ok none, { st with memory := st.memory.filter (fun p => p.1 ≠ key) })
  | none => (.ok none, st)

/-- Body of the `try` block of `CacheService.get`: the Redis tier first — a
raising client aborts the whole block right there — then the memory tier. -/
def cacheGetInner (st : CacheState) (redis : RedisBehavior) (now : Nat)
    (key : List Char) : CacheOutcome (Option (List Char)) × CacheState :=
  match st.redis_connected, redis with
  | true, .raises m => (.raised m, st)
  | true, .works f =>
    match f key with
    | some v => (.ok (some v), st)
    | none => cacheGetMemory st now key
  | false, _ => cacheGetMemory st now key

/-- `CacheService.get`: the `except` clause turns any exception into a
`None` result, leaving the state as the raise left it. -/
def CacheService.get (st : CacheState) (redis : RedisBehavior) (now : Nat)
    (key : List Char) : Option (List Char) × CacheState :=
  match cacheGetInner st redis now key with
  | (.ok v, st') => (v, st')
  | (.raised _, _) => (none, st)

/-- Body of the `try` block of `CacheService.set`: a Redis `setex` on a
raising client aborts the block before the memory write is reached. -/
def cacheSetInner (st : CacheState) (redis : RedisBehavior) (now : Nat)
    (key value : List Char) (ttl : Option Nat) :
    CacheOutcome Bool × CacheState :=
  let t := ttl.getD default_ttl
  match st.redis_connected, redis with
  | true, .raises m => (.raised m, st)
  | _, _ =>
    (.ok true,
     { st with memory := (key, { data := value, expires_at := now + t }) :: st.memory })

/-- `CacheService.set`: the `except` clause turns any exception into a
`False` return. -/
def CacheService.set (st : CacheState) (redis : RedisBehavior) (now : Nat)
    (key value : List Char) (ttl : Option Nat) : Bool × CacheState :=
  match cacheSetInner st redis now key value ttl with
  | (.ok b, st') => (b, st')
  | (.raised _, _) => (false, st)

/-! ## routes/optimize.py — the job orchestrator

`optimize_resume` (submit), `process_optimization_background`,
`generate_pdf_background`, `save_to_history`, and the status/result reads.
A job's store mutations and external effects are modelled as a list of
`Action`s; the outcomes of the external collaborators (LLM call, PDF
compiler, file system, history database) are an `Env` the pipeline branches
on. -/

/-- `status` values of the per-job record in `optimization_status_store`. -/
inductive JobStatus where
  | processing
  | completed
  | failed
deriving Repr, DecidableEq

/-- The claim-relevant keys of the loosely-typed `result` dictionary. -/
structure ResultPayload where
  optimized_tex : List Char
  has_raw_latex : Bool
  latex_download_url : Option (List Char)
  pdf_path : Option (List Char)
  cold_email : Option (List Char)
  cover_letter : Option (List Char)
deriving Repr, DecidableEq

/-- The claim-relevant keys of one `optimization_status_store` entry.
(The job-context keys — original text, company, … — are copied in at
submission and never mutated afterwards; no claim consults them.) -/
structure JobRecord where
  status : JobStatus
  progress : Nat
  message : List Char
  error : Option (List Char)
  result : Option ResultPayload
  cached : Bool
deriving Repr, DecidableEq

/-- The submit payload (`OptimizationRequest` of `models/schemas.py`),
restricted to the fields the pipeline branches on. -/
structure OptimizationRequest where
  tex_content : List Char
  job_description : List Char
  company_name : List Char
  custom_instructions : List Char
  provider : List Char
  model : List Char
  generate_cold_email : Bool
  generate_cover_letter : Bool

/-- The claim-relevant columns of an `OptimizationHistory` row. -/
structure HistoryRecord where
  optimization_id : List Char
  status : List Char
  pdf_path : Option (List Char)
  latex_path : Option (List Char)
  error_message : Option (List Char)
deriving Repr, DecidableEq

/-- Outcome of `pdf_generator.compile_latex_to_pdf`: an exception, or a
returned dictionary with a success flag, an error text and a PDF path. -/
inductive PdfOutcome where
  | raised (msg : List Char)
  | returned (success : Bool) (err : List Char) (pdf_path : List Char)
deriving Repr, DecidableEq

/-- Outcomes of the external collaborators during one background run:
the LLM call (`Except` for a raised transport error), the extracted
auxiliary texts, the compiler, the two file-system write sites, and the
history-database commit. -/
structure Env where
  llm : Except (List Char) (List Char)
  auxEmail : Option (List Char)
  auxLetter : Option (List Char)
  pdf : PdfOutcome
  sourceSaveOk : Bool
  persistOk : Bool
  persistErr : List Char
  historyCommitOk : Bool

/-- One store mutation or external effect of the pipeline, in program
order.  Only the first five constructors touch the job record. -/
inductive Action where
  | progressUpd (p : Nat) (msg : List Char)
  | fail (err : List Char)
  | failWithResult (msg err : List Char) (res : ResultPayload)
  | complete (msg : List Char) (res : ResultPayload)
  | completeCached (res : ResultPayload)
  | llmCall
  | cacheSet (key : List Char)
  | cachePdf (path : List Char)
  | persistFile (filename : List Char)
  | history (rec : HistoryRecord)
  | track
deriving Repr, DecidableEq

/-- Effect of one action on the job record (non-store actions are the
identity). -/
def applyA (r : JobRecord) : Action → JobRecord
  | .progressUpd p m => { r with progress := p, message := m }
  | .fail e => { r with status := .failed, error := some e }
  | .failWithResult m e res =>
    { r with status := .failed, progress := 100, message := m, error := some e,
             result := some res, cached := false }
  | .complete m res =>
    { r with status := .completed, progress := 100, message := m,
             result := some res, cached := false }
  | .completeCached res =>
    { r with status := .completed, progress := 100,
             message := "Optimization completed (from cache)".data,
             result := some res, cached := true }
  | _ => r

/-- The record `optimize_resume` inserts into the store before validating. -/
def initRecord : JobRecord :=
  { status := .processing, progress := 0,
    message := "Starting optimization...".data, error := none,
    result := none, cached := false }

/-- `CacheService.generate_optimization_key`: the pipe-joined four-tuple.
(The Python code then takes an MD5 hex digest; the digest is modelled by
the identity on the joined string — the claims depend only on the key being
a deterministic function of the tuple.) -/
def generate_optimization_key (tex jd prov mdl : List Char) : List Char :=
  tex ++ "|".data ++ jd ++ "|".data ++ prov ++ "|".data ++ mdl

/-- Name of the source file persisted when compilation fails
(`f"{company_name}_resume_{optimization_id}_FAILED.tex"`). -/
def failedTexName (req : OptimizationRequest) (id : List Char) : List Char :=
  req.company_name ++ "_resume_".data ++ id ++ "_FAILED.tex".data

/-- Name of the source file persisted on success. -/
def texName (req : OptimizationRequest) (id : List Char) : List Char :=
  req.company_name ++ "_resume_".data ++ id ++ ".tex".data

/-- Name of the artifact persisted on success. -/
def pdfName (req : OptimizationRequest) (id : List Char) : List Char :=
  req.company_name ++ "_resume_".data ++ id ++ ".pdf".data

/-- The user-facing message of the compile-failure partial-success state. -/
def overleafMessage : List Char :=
  "⚠️ PDF compilation failed due to limited server resources. Please copy the LaTeX code below and paste it into Overleaf.com to generate your PDF.".data

/-- The `error` text of the compile-failure state. -/
def overleafError (e : List Char) : List Char :=
  "PDF cannot be compiled on this server due to resource limitations. Please use Overleaf.com: ".data ++ e

/-- `str(e)` of the `NameError` that the elapsed-time computations
`int((time.time() - start_time) * 1000)` raise in both terminal branches of
`process_optimization_background`: `start_time` is a local of
`optimize_resume` and is undefined in the background function's scope. -/
def nameErrorText : List Char :=
  "name 'start_time' is not defined".data

/-- The `result` dictionary of the compile-failure state: the cleaned
source, `has_raw_latex`, and the source-download pointer. -/
def failedResult (id opt : List Char) (ce cl : Option (List Char)) :
    ResultPayload :=
  { optimized_tex := opt, has_raw_latex := true,
    latex_download_url := some ("/optimize/".data ++ id ++ "/download/latex".data),
    pdf_path := none, cold_email := ce, cover_letter := cl }

/-- The `result` dictionary of the success state. -/
def completedResult (opt path : List Char) (ce cl : Option (List Char)) :
    ResultPayload :=
  { optimized_tex := opt, has_raw_latex := false, latex_download_url := none,
    pdf_path := some path, cold_email := ce, cover_letter := cl }

/-- The compile-failure branch of `process_optimization_background`
(lines 484–551): persist the source under the failure-suffixed name, cache
its path, and set the job failed-with-result.  The elapsed-time computation
that follows raises `NameError` (`start_time` is undefined here), so the
inner `except` overwrites `error` with the bare `"PDF generation failed"`
and returns — the `save_to_history` call just below it is dead code and no
failed history row is ever written.  A failing source write jumps to the
same `except` before anything is persisted. -/
def pdfFailActions (id : List Char) (req : OptimizationRequest)
    (opt errMsg : List Char) (ce cl : Option (List Char)) (saveOk : Bool) :
    List Action :=
  if saveOk then
    [.persistFile (failedTexName req id),
     .cachePdf (failedTexName req id),
     .failWithResult overleafMessage (overleafError errMsg)
       (failedResult id opt ce cl),
     .fail "PDF generation failed".data]
  else [.fail "PDF generation failed".data]

/-- `process_optimization_background`: the store mutations and external
effects of one background run, in program order.  The single `Except` of
`env.llm` stands for the prompt-load/`asyncio.gather` block (the auxiliary
generator catches its own exceptions); a failing success-path file write
falls to the outermost handler with the exception text.  On the success
path, after the `completed` store update and the usage tracking, the
elapsed-time computation raises `NameError` (`start_time` is a local of
`optimize_resume`), so the outermost `except` flips the record to `failed`
with the exception text — the `save_to_history` call below it is dead code
and no completed history row is ever written. -/
def backgroundActions (id : List Char) (req : OptimizationRequest)
    (env : Env) : List Action :=
  [.progressUpd 40 "Calling LLM API...".data, .llmCall] ++
  match env.llm with
  | .error e => [.fail e]
  | .ok raw =>
    let opt := clean_latex_content raw
    let ce := if req.generate_cold_email then env.auxEmail else none
    let cl := if req.generate_cover_letter then env.auxLetter else none
    [.progressUpd 70 "LLM processing completed, cleaning and validating result...".data] ++
    if (validate_optimization_result req.tex_content opt).is_valid then
      [.cacheSet (generate_optimization_key req.tex_content
         req.job_description req.provider req.model),
       .progressUpd 95 "Generating PDF...".data] ++
      match env.pdf with
      | .raised m => pdfFailActions id req opt m ce cl env.sourceSaveOk
      | .returned false e _ => pdfFailActions id req opt e ce cl env.sourceSaveOk
      | .returned true _ path =>
        [.cachePdf path] ++
        if env.persistOk then
          [.persistFile (texName req id), .persistFile (pdfName req id),
           .complete "Optimization completed successfully".data
             (completedResult opt path ce cl),
           .track,
           .fail nameErrorText]
        else [.fail env.persistErr]
    else [.fail "Generated LaTeX is invalid".data]

/-- Return value of the submit endpoint: an `OptimizationResponse`, or an
`HTTPException` escaping to the framework. -/
inductive SubmitOutcome where
  | ok (status : JobStatus) (estimated_time_seconds : Nat)
  | httpError (code : Nat) (detail : List Char)
deriving Repr, DecidableEq

/-- A task handed to `background_tasks.add_task`. -/
inductive ScheduledTask where
  | processBackground
  | pdfBackground (tex : List Char) (company : List Char)
deriving Repr, DecidableEq

/-- `optimize_resume` (the submit handler), after the store insert of
`initRecord`: synchronous validation, cache consultation, and scheduling.
`cached` is the value the cache lookup returned for this request's
four-tuple key.  Yields the store mutations, the outcome handed to the
framework, and the scheduled background tasks. -/
def optimize_resume (req : OptimizationRequest)
    (cached : Option ResultPayload) :
    List Action × SubmitOutcome × List ScheduledTask :=
  let pr := parse_latex req.tex_content
  if pr.is_valid then
    let a1 := [Action.progressUpd 20 "LaTeX validated, checking cache...".data]
    match cached with
    | some res =>
      (a1 ++ [.completeCached res], .ok .completed 1,
       [.pdfBackground res.optimized_tex req.company_name])
    | none => (a1, .ok .processing 30, [.processBackground])
  else
    ([.fail ("Invalid LaTeX: ".data ++ List.intercalate ", ".data pr.errors)],
     .httpError 400
       ("Invalid LaTeX content: ".data ++ List.intercalate ", ".data pr.errors),
     [])

/-- `generate_pdf_background` (the cached-path compile task): caches the
artifact path on success; failures and exceptions are logged and
swallowed.  It never touches `optimization_status_store`. -/
def generate_pdf_background (pdf : PdfOutcome) : List Action :=
  match pdf with
  | .returned true _ path => [.cachePdf path]
  | .returned false _ _ => []
  | .raised _ => []

/-- Body of the `try` of `save_to_history`: the database commit may fail. -/
def save_to_history_inner (commitOk : Bool) (rec : HistoryRecord) :
    Except (List Char) (List HistoryRecord) :=
  if commitOk then .ok [rec] else .error "DB commit failed".data

/-- `save_to_history`: the `except` clause logs and rolls back; nothing is
re-raised (second component: the exception escaping to the caller). -/
def save_to_history (commitOk : Bool) (rec : HistoryRecord) :
    List HistoryRecord × Option (List Char) :=
  match save_to_history_inner commitOk rec with
  | .ok l => (l, none)
  | .error _ => ([], none)

/-- History rows durably written over a run. -/
def historyWritten (commitOk : Bool) (acts : List Action) :
    List HistoryRecord :=
  acts.foldr
    (fun a accu =>
      match a with
      | .history rec => (save_to_history commitOk rec).1 ++ accu
      | _ => accu) []

/-- Files persisted to durable storage over a run. -/
def persistedFiles (acts : List Action) : List (List Char) :=
  acts.filterMap (fun a =>
    match a with
    | .persistFile f => some f
    | _ => none)

/-- Fold a run's actions over the job record. -/
def runActions (r : JobRecord) (acts : List Action) : JobRecord :=
  acts.foldl applyA r

/-- The full observable store history of one submission: the submit
handler's mutations followed by the scheduled background run's.  (The
cached path's detached `generate_pdf_background` contributes no store
mutation.) -/
def jobTrace (id : List Char) (req : OptimizationRequest) (env : Env)
    (cached : Option ResultPayload) : List Action :=
  (optimize_resume req cached).1 ++
    ((optimize_resume req cached).2.2.map (fun t =>
      match t with
      | .processBackground => backgroundActions id req env
      | .pdfBackground _ _ => [])).flatten

/-- The job record visible to a poll after `n` steps of the run. -/
def traj (acts : List Action) (n : Nat) : JobRecord :=
  runActions initRecord (acts.take n)

/-- Response shape of the status poll. -/
structure OptimizationStatusView where
  status : JobStatus
  progress : Nat
  message : List Char
  error : Option (List Char)
  result_url : Option (List Char)
deriving Repr, DecidableEq

/-- `get_optimization_status`: a pure read of the store record; 404 when
unknown; a result URL is attached once completed. -/
def get_optimization_status (id : List Char) (rec : Option JobRecord) :
    Except (Nat × List Char) OptimizationStatusView :=
  match rec with
  | none => .error (404, "Optimization not found".data)
  | some r =>
    .ok { status := r.status, progress := r.progress, message := r.message,
          error := r.error,
          result_url :=
            if r.status = .completed then
              some ("/optimize/".data ++ id ++ "/result".data)
            else none }

/-- Response shape of the result read. -/
structure OptimizationResultView where
  status : JobStatus
  optimized_tex : Option (List Char)
  pdf_download_url : Option (List Char)
  latex_download_url : Option (List Char)
  error_message : Option (List Char)
deriving Repr, DecidableEq

/-- `get_optimization_result`: 404 when unknown, 400 while processing;
otherwise the terminal payload — with the source-download pointer exactly
when the job failed holding raw source, and the artifact pointer only when
completed with a cached artifact path. -/
def get_optimization_result (id : List Char) (rec : Option JobRecord)
    (cachedPdfPath : Option (List Char)) :
    Except (Nat × List Char) OptimizationResultView :=
  match rec with
  | none => .error (404, "Optimization not found".data)
  | some r =>
    if r.status = .processing then
      .error (400, "Optimization still in progress".data)
    else
      let hasRaw := (r.result.map (·.has_raw_latex)).getD false
      .ok { status := r.status
            optimized_tex := r.result.map (·.optimized_tex)
            pdf_download_url :=
              if r.status = .completed ∧ cachedPdfPath.isSome then
                some ("/download/".data ++ id)
              else none
            latex_download_url :=
              if r.status = .failed ∧ hasRaw then
                r.result.bind (·.latex_download_url)
              else none
            error_message := if r.status = .failed then r.error else none }

/-- The compiler did not produce an artifact: it raised, or returned with
`success = False`. -/
def pdfFailed : PdfOutcome → Prop
  | .raised _ => True
  | .returned ok _ _ => ok = false

/-- The diagnostic the failure branch reports
(`pdf_error if pdf_error else pdf_result.get('error', ...)`). -/
def pdfErrText : PdfOutcome → List Char
  | .raised m => m
  | .returned _ e _ => e

/-! ## Concrete texts used by counterexamples and witnesses -/

/-- A structurally valid resume with document class `article` and a
`Skills` section. -/
def c3orig : List Char :=
  "\\documentclass[]{article}\n\\begin{document}\n\\section{Skills}\nx\n\\end{document}".data

/-- A structurally valid transformation of `c3orig` that changed the document
class to `report` and dropped the `Skills` section. -/
def c3prod : List Char :=
  "\\documentclass[]{report}\n\\begin{document}\ny\n\\end{document}".data

/-- A submission whose document has none of the three structural anchors. -/
def c1req : OptimizationRequest :=
  { tex_content := "hello".data, job_description := "jd".data,
    company_name := "Acme".data, custom_instructions := [],
    provider := "claude".data, model := "m".data,
    generate_cold_email := false, generate_cover_letter := false }

/-- A submission carrying the structurally valid document `c3orig`. -/
def validReq : OptimizationRequest :=
  { tex_content := c3orig, job_description := "jd".data,
    company_name := "Acme".data, custom_instructions := [],
    provider := "claude".data, model := "m".data,
    generate_cold_email := false, generate_cover_letter := false }

/-- A cached generation result for the witness of the cached path. -/
def c4res : ResultPayload :=
  { optimized_tex := "t".data, has_raw_latex := false,
    latex_download_url := none, pdf_path := none,
    cold_email := none, cover_letter := none }

/-- A healthy environment: echoing generator, succeeding compiler and
file system, committing history database. -/
def okEnv : Env :=
  { llm := .ok c3orig, auxEmail := none, auxLetter := none,
    pdf := .returned true [] "out.pdf".data,
    sourceSaveOk := true, persistOk := true, persistErr := [],
    historyCommitOk := true }

/-- `okEnv` with the compiler failing with a diagnostic. -/
def pdfFailEnv : Env :=
  { okEnv with pdf := .returned false "compile boom".data [] }

/-- A cache state whose networked tier claims to be connected and whose
memory tier holds the key `k`. -/
def c5state : CacheState :=
  { redis_connected := true,
    memory := [("k".data, { data := "v".data, expires_at := 100 })] }

/-! ## Theorems -/

/-- **C8.** `parse_latex` declares a text valid exactly when the three
mandatory structural anchors are present: the `\documentclass` declaration,
`\begin{document}` and `\end{document}`.  Missing resume sections only feed
the warning list, which no part of `is_valid` consults, so they can never
make the result invalid. -/
theorem parse_latex_valid_iff_anchors (l : List Char) :
    (parse_latex l).is_valid =
      ((findDocClass l).isSome && has_begin_document l && has_end_document l) := by
  unfold parse_latex structure_errors
  cases h1 : (findDocClass l).isSome <;> cases h2 : has_begin_document l <;>
    cases h3 : has_end_document l <;> simp [h1, h2, h3]

/-- **C3, counterexample.** `validate_optimization_result` does *not* fail
validation when the document class changes and a section disappears: on the
concrete pair `(c3orig, c3prod)` the document class changed from `article`
to `report` and the `skills` section was removed, yet `is_valid` is `true`. -/
theorem validate_is_valid_ignores_structure_counterexample :
    (validate_optimization_result c3orig c3prod).is_valid = true ∧
    (parse_latex c3orig).document_class ≠ (parse_latex c3prod).document_class ∧
    removed_sections c3orig c3prod ≠ [] := by
  refine ⟨by decide, by decide, by decide⟩

/-- **C3, amended.** A changed document class or a removed section is
recorded — as an entry of `issues`, and for removed sections by clearing
`structure_preserved` — but `is_valid` reflects only the structural parse
validity of the produced text. -/
theorem validate_records_structure_changes (o p : List Char) :
    (validate_optimization_result o p).is_valid = (parse_latex p).is_valid ∧
    ((parse_latex o).document_class ≠ (parse_latex p).document_class →
      (validate_optimization_result o p).issues ≠ []) ∧
    (removed_sections o p ≠ [] →
      (validate_optimization_result o p).structure_preserved = false) := by
  refine ⟨rfl, ?_, ?_⟩
  · intro h
    unfold validate_optimization_result
    simp only [h]
    simp
    exact fun h2 _ => absurd h2 h
  · intro h
    unfold validate_optimization_result
    simp [List.isEmpty_iff, h]

/-- **C3, witness** for the amended theorem, at the concrete pair
`(c3orig, c3prod)`. -/
theorem validate_records_structure_changes_witness :
    (validate_optimization_result c3orig c3prod).issues ≠ [] ∧
    (validate_optimization_result c3orig c3prod).structure_preserved = false :=
  ⟨(validate_records_structure_changes c3orig c3prod).2.1 (by decide),
   (validate_records_structure_changes c3orig c3prod).2.2 (by decide)⟩

/-- Characters surviving `cwAux` are underscores or non-whitespace
characters of the input. -/
theorem mem_cwAux {c : Char} {b : Bool} {l : List Char} (h : c ∈ cwAux b l) :
    c = '_' ∨ (c ∈ l ∧ isPySpace c = false) := by
  induction l generalizing b with
  | nil => simp [cwAux] at h
  | cons a t ih =>
    simp only [cwAux] at h
    by_cases ha : isPySpace a
    · rw [if_pos ha] at h
      cases b with
      | true =>
        rcases ih h with h1 | h2
        · exact Or.inl h1
        · exact Or.inr ⟨List.mem_cons_of_mem _ h2.1, h2.2⟩
      | false =>
        rcases List.mem_cons.1 h with h1 | h1
        · exact Or.inl h1
        · rcases ih h1 with h2 | h2
          · exact Or.inl h2
          · exact Or.inr ⟨List.mem_cons_of_mem _ h2.1, h2.2⟩
    · rw [if_neg ha] at h
      rcases List.mem_cons.1 h with h1 | h1
      · subst h1
        exact Or.inr ⟨List.mem_cons_self _ _, by simpa using ha⟩
      · rcases ih h1 with h2 | h2
        · exact Or.inl h2
        · exact Or.inr ⟨List.mem_cons_of_mem _ h2.1, h2.2⟩

/-- **C10.** For every input, `_sanitize_filename` returns a non-empty name
of at most 50 characters containing neither whitespace nor any of the
characters `< > : " / \ | ? *`. -/
theorem sanitize_filename_safe (l : List Char) :
    sanitize_filename l ≠ [] ∧ (sanitize_filename l).length ≤ 50 ∧
    ∀ c ∈ sanitize_filename l, isPySpace c = false ∧ forbiddenChar c = false := by
  have hchars2 : ∀ c ∈ sanitizeCollapsed l,
      isPySpace c = false ∧ forbiddenChar c = false := by
    intro c hc
    rcases mem_cwAux hc with h | ⟨hmem, hws⟩
    · subst h; exact ⟨by decide, by decide⟩
    · refine ⟨hws, ?_⟩
      rcases List.mem_map.1 hmem with ⟨a, _, ha⟩
      by_cases hfa : forbiddenChar a = true
      · rw [← ha]
        simp only [hfa, if_true]
        decide
      · rw [← ha]
        simp only [hfa, if_false]
        simpa using hfa
  have hchars3 : ∀ c ∈ sanitizeStripped l,
      isPySpace c = false ∧ forbiddenChar c = false := by
    intro c hc
    apply hchars2
    have h1 := (List.mem_reverse).1 hc
    have h2 := (List.dropWhile_sublist isDotUnderscore).subset h1
    have h3 := (List.mem_reverse).1 h2
    exact (List.dropWhile_sublist isDotUnderscore).subset h3
  have hchars4 : ∀ c ∈ sanitizeCut l,
      isPySpace c = false ∧ forbiddenChar c = false := by
    unfold sanitizeCut
    split
    · intro c hc; exact hchars3 _ (List.take_subset _ _ hc)
    · exact hchars3
  have hlen4 : (sanitizeCut l).length ≤ 50 := by
    unfold sanitizeCut
    split
    · simp
    · omega
  unfold sanitize_filename
  by_cases hemp : (sanitizeCut l).isEmpty
  · rw [if_pos hemp]
    refine ⟨by decide, by decide, ?_⟩
    intro c hc
    fin_cases hc <;> exact ⟨by decide, by decide⟩
  · rw [if_neg hemp]
    exact ⟨by simpa [List.isEmpty_iff] using hemp, hlen4, hchars4⟩

/-- **C5.** Code bug at the failing input "connected Redis tier raising at
access time": `get` returns `None` without consulting the memory tier that
holds the key, and `set` returns `False` without writing the memory tier —
the `try` block of each method covers both tiers, so a Redis exception
skips the memory fallback, contradicting the code's own
"Always cache in memory as backup".  When the tier is merely disconnected
(`redis_connected = False`), the fallback behaves as claimed. -/
theorem cache_redis_exception_skips_memory :
    (CacheService.get c5state (.raises "conn refused".data) 0 "k".data).1
      = none ∧
    (CacheService.get { c5state with redis_connected := false }
      (.raises "conn refused".data) 0 "k".data).1 = some "v".data ∧
    (CacheService.set c5state (.raises "conn refused".data) 0
      "k2".data "v2".data none).1 = false ∧
    ((CacheService.set c5state (.raises "conn refused".data) 0
      "k2".data "v2".data none).2.memory.lookup "k2".data) = none := by
  refine ⟨rfl, by decide, rfl, by decide⟩

/-- **C1, counterexample.** On a document with no structural anchor, the
submit handler does *not* return the job id: it marks the freshly created
record failed and lets an `HTTPException` with status 400 escape. -/
theorem submit_raises_on_invalid_counterexample :
    (optimize_resume c1req none).2.1 = .httpError 400
      ("Invalid LaTeX content: Missing \\documentclass declaration, Missing \\begin{document}, Missing \\end{document}".data) ∧
    (runActions initRecord (optimize_resume c1req none).1).status = .failed := by
  constructor
  · decide
  · decide

/-- **C1, amended.** The submit handler validates synchronously; on
structural failure it marks the job record `failed` with the validation
errors, schedules nothing — and raises an HTTP 400 error carrying those
errors instead of returning the job id. -/
theorem submit_validates_synchronously (req : OptimizationRequest)
    (cached : Option ResultPayload)
    (h : (parse_latex req.tex_content).is_valid = false) :
    (runActions initRecord (optimize_resume req cached).1).status = .failed ∧
    (runActions initRecord (optimize_resume req cached).1).error =
      some ("Invalid LaTeX: ".data ++
        List.intercalate ", ".data (parse_latex req.tex_content).errors) ∧
    (optimize_resume req cached).2.1 = .httpError 400
      ("Invalid LaTeX content: ".data ++
        List.intercalate ", ".data (parse_latex req.tex_content).errors) ∧
    (optimize_resume req cached).2.2 = [] := by
  unfold optimize_resume
  simp [h, runActions, applyA]

/-- **C1, witness** for the amended theorem, at the anchor-free document. -/
theorem submit_validates_synchronously_witness :
    (runActions initRecord (optimize_resume c1req none).1).status = .failed ∧
    (runActions initRecord (optimize_resume c1req none).1).error =
      some ("Invalid LaTeX: ".data ++
        List.intercalate ", ".data (parse_latex c1req.tex_content).errors) ∧
    (optimize_resume c1req none).2.1 = .httpError 400
      ("Invalid LaTeX content: ".data ++
        List.intercalate ", ".data (parse_latex c1req.tex_content).errors) ∧
    (optimize_resume c1req none).2.2 = [] :=
  submit_validates_synchronously c1req none (by decide)

/-- **C4.** A cache hit completes the job immediately (status `completed`,
progress 100, `cached` flag set, estimated time 1), makes no generation
call (the run's trace holds no `llmCall`), and schedules only the detached
compile task — whose outcome never changes any job record. -/
theorem cached_hit_completes_without_generation
    (req : OptimizationRequest) (res : ResultPayload) (id : List Char)
    (env : Env) (hv : (parse_latex req.tex_content).is_valid = true) :
    (runActions initRecord (optimize_resume req (some res)).1).status
      = .completed ∧
    (runActions initRecord (optimize_resume req (some res)).1).progress
      = 100 ∧
    (runActions initRecord (optimize_resume req (some res)).1).cached
      = true ∧
    (optimize_resume req (some res)).2.1 = .ok .completed 1 ∧
    (optimize_resume req (some res)).2.2 =
      [.pdfBackground res.optimized_tex req.company_name] ∧
    (jobTrace id req env (some res)).contains .llmCall = false ∧
    (∀ (r : JobRecord) (pdf : PdfOutcome),
      runActions r (generate_pdf_background pdf) = r) := by
  refine ⟨?_, ?_, ?_, ?_, ?_, ?_, ?_⟩
  · simp [optimize_resume, hv, runActions, applyA]
  · simp [optimize_resume, hv, runActions, applyA]
  · simp [optimize_resume, hv, runActions, applyA]
  · simp [optimize_resume, hv]
  · simp [optimize_resume, hv]
  · simp [jobTrace, optimize_resume, hv]
  · intro r pdf
    cases pdf with
    | raised m => rfl
    | returned s e p => cases s <;> rfl

/-- **C4, witness** at a valid document with a pre-seeded cache entry. -/
theorem cached_hit_completes_without_generation_witness :
    (runActions initRecord (optimize_resume validReq (some c4res)).1).status
      = .completed ∧
    (runActions initRecord (optimize_resume validReq (some c4res)).1).progress
      = 100 ∧
    (runActions initRecord (optimize_resume validReq (some c4res)).1).cached
      = true ∧
    (optimize_resume validReq (some c4res)).2.1 = .ok .completed 1 ∧
    (optimize_resume validReq (some c4res)).2.2 =
      [.pdfBackground c4res.optimized_tex validReq.company_name] ∧
    (jobTrace "id0".data validReq okEnv (some c4res)).contains .llmCall
      = false ∧
    (∀ (r : JobRecord) (pdf : PdfOutcome),
      runActions r (generate_pdf_background pdf) = r) :=
  cached_hit_completes_without_generation validReq c4res "id0".data okEnv
    (by decide)

/-- **C7.** `save_to_history` never lets an exception escape to its caller,
the history action leaves every job record untouched, and the whole store
trace of a run is independent of whether the history commit succeeds — so
a history-write failure cannot flip a completed job back to failed. -/
theorem save_to_history_never_flips_job :
    (∀ (commitOk : Bool) (rec : HistoryRecord),
      (save_to_history commitOk rec).2 = none) ∧
    (∀ (r : JobRecord) (rec : HistoryRecord), applyA r (.history rec) = r) ∧
    (∀ (id : List Char) (req : OptimizationRequest) (env : Env)
      (cached : Option ResultPayload) (b : Bool),
      jobTrace id req { env with historyCommitOk := b } cached =
        jobTrace id req env cached) := by
  refine ⟨?_, ?_, ?_⟩
  · intro commitOk rec
    cases commitOk <;> rfl
  · intro r rec
    rfl
  · intro id req env cached b
    cases env
    rfl

/-- **C2 (code bug).** When generation and output validation succeed but
compilation fails, the cleaned source *is* persisted under the
failure-suffixed name, the job *does* end failed carrying the
manual-compilation message and the non-empty source-download pointer — but
the elapsed-time computation at the end of the branch raises `NameError`
(`start_time` is undefined in `process_optimization_background`), so the
claimed `failed` history row is never written and the `error` field the
result read reports is overwritten with the bare `"PDF generation failed"`
instead of the compiler diagnostic. -/
theorem compile_failure_skips_history
    (id : List Char) (req : OptimizationRequest) (env : Env) (raw : List Char)
    (cp : Option (List Char))
    (hparse : (parse_latex req.tex_content).is_valid = true)
    (hllm : env.llm = .ok raw)
    (hval : (validate_optimization_result req.tex_content
      (clean_latex_content raw)).is_valid = true)
    (hfail : pdfFailed env.pdf)
    (hsave : env.sourceSaveOk = true) :
    (runActions initRecord (jobTrace id req env none)).status = .failed ∧
    (runActions initRecord (jobTrace id req env none)).message
      = overleafMessage ∧
    persistedFiles (jobTrace id req env none) = [failedTexName req id] ∧
    historyWritten env.historyCommitOk (jobTrace id req env none) = [] ∧
    (runActions initRecord (jobTrace id req env none)).error
      = some "PDF generation failed".data ∧
    get_optimization_result id
      (some (runActions initRecord (jobTrace id req env none))) cp =
      .ok { status := .failed,
            optimized_tex := some (clean_latex_content raw),
            pdf_download_url := none,
            latex_download_url :=
              some ("/optimize/".data ++ id ++ "/download/latex".data),
            error_message := some "PDF generation failed".data } ∧
    ("/optimize/".data ++ id ++ "/download/latex".data) ≠ [] := by
  rcases hpdf : env.pdf with m | ⟨s, e, p⟩
  · refine ⟨?_, ?_, ?_, ?_, ?_, ?_, ?_⟩ <;>
      simp [jobTrace, optimize_resume, backgroundActions, pdfFailActions,
        runActions, applyA, persistedFiles, historyWritten, save_to_history,
        save_to_history_inner, get_optimization_result, failedResult,
        pdfErrText, hparse, hllm, hval, hpdf, hsave]
  · have hs : s = false := by rw [hpdf] at hfail; exact hfail
    subst hs
    refine ⟨?_, ?_, ?_, ?_, ?_, ?_, ?_⟩ <;>
      simp [jobTrace, optimize_resume, backgroundActions, pdfFailActions,
        runActions, applyA, persistedFiles, historyWritten, save_to_history,
        save_to_history_inner, get_optimization_result, failedResult,
        pdfErrText, hparse, hllm, hval, hpdf, hsave]

/-- **C2, witness** at the valid document, an echoing generator, and a
compiler returning a failure. -/
theorem compile_failure_skips_history_witness :
    (runActions initRecord (jobTrace "w2".data validReq pdfFailEnv none)).status
      = .failed ∧
    (runActions initRecord
      (jobTrace "w2".data validReq pdfFailEnv none)).message
      = overleafMessage ∧
    persistedFiles (jobTrace "w2".data validReq pdfFailEnv none)
      = [failedTexName validReq "w2".data] ∧
    historyWritten pdfFailEnv.historyCommitOk
      (jobTrace "w2".data validReq pdfFailEnv none) = [] ∧
    (runActions initRecord
      (jobTrace "w2".data validReq pdfFailEnv none)).error
      = some "PDF generation failed".data ∧
    get_optimization_result "w2".data
      (some (runActions initRecord
        (jobTrace "w2".data validReq pdfFailEnv none))) none =
      .ok { status := .failed,
            optimized_tex := some (clean_latex_content c3orig),
            pdf_download_url := none,
            latex_download_url :=
              some ("/optimize/".data ++ "w2".data ++ "/download/latex".data),
            error_message := some "PDF generation failed".data } ∧
    ("/optimize/".data ++ "w2".data ++ "/download/latex".data) ≠ [] :=
  compile_failure_skips_history "w2".data validReq pdfFailEnv c3orig none
    (by decide) rfl (by decide) rfl rfl

/-- **C6 (code bug).** The intended machine `processing*, (completed|failed)`
with sticky terminal states is violated by every successful uncached run:
after the `completed` store update, the elapsed-time computation of the
history block raises `NameError` (`start_time` is a local of
`optimize_resume`), and the outermost `except` flips the record to `failed`
with the exception text — the observed status sequence is
`processing*, completed, failed`, the job is terminal twice, and polls of
the completed record do not stay stable.  (No completed history row is
written either, the `save_to_history` call being past the raise.) -/
theorem completed_job_flips_to_failed
    (id : List Char) (req : OptimizationRequest) (env : Env)
    (raw err path : List Char)
    (hparse : (parse_latex req.tex_content).is_valid = true)
    (hllm : env.llm = .ok raw)
    (hval : (validate_optimization_result req.tex_content
      (clean_latex_content raw)).is_valid = true)
    (hpdf : env.pdf = .returned true err path)
    (hpersist : env.persistOk = true) :
    (traj (jobTrace id req env none) 10).status = .completed ∧
    (runActions initRecord (jobTrace id req env none)).status = .failed ∧
    (runActions initRecord (jobTrace id req env none)).error
      = some nameErrorText ∧
    get_optimization_status id
        (some (runActions initRecord (jobTrace id req env none)))
      ≠ get_optimization_status id (some (traj (jobTrace id req env none) 10)) ∧
    historyWritten env.historyCommitOk (jobTrace id req env none) = [] := by
  refine ⟨?_, ?_, ?_, ?_, ?_⟩ <;>
    simp [traj, jobTrace, optimize_resume, backgroundActions, runActions,
      applyA, historyWritten, get_optimization_status,
      hparse, hllm, hval, hpdf, hpersist]

/-- **C6, witness**: a healthy environment on the valid document reaches
`completed` at step 10 and ends `failed` with the `NameError` text. -/
theorem completed_job_flips_to_failed_witness :
    (traj (jobTrace "w".data validReq okEnv none) 10).status = .completed ∧
    (runActions initRecord (jobTrace "w".data validReq okEnv none)).status
      = .failed ∧
    (runActions initRecord (jobTrace "w".data validReq okEnv none)).error
      = some nameErrorText ∧
    get_optimization_status "w".data
        (some (runActions initRecord (jobTrace "w".data validReq okEnv none)))
      ≠ get_optimization_status "w".data
        (some (traj (jobTrace "w".data validReq okEnv none) 10)) ∧
    historyWritten okEnv.historyCommitOk
      (jobTrace "w".data validReq okEnv none) = [] :=
  completed_job_flips_to_failed "w".data validReq okEnv c3orig []
    "out.pdf".data (by decide) rfl (by decide) rfl rfl

/-! ### Groundwork for the cleaning pipeline: character classes -/

/-- ASCII letters are not whitespace and differ from the structural
characters of the command-spacing pattern. -/
theorem letter_facts {c : Char} (h : isAsciiLetter c = true) :
    isPySpace c = false ∧ c ≠ '\\' ∧ c ≠ '\n' ∧ c ≠ '{' ∧
    isIndentChar c = false ∧ c ≠ ' ' := by
  simp only [isAsciiLetter, Bool.or_eq_true, Bool.and_eq_true,
    decide_eq_true_eq] at h
  refine ⟨?_, ?_, ?_, ?_, ?_, ?_⟩
  · by_contra hq
    have h2 : isPySpace c = true := by simpa using hq
    simp only [isPySpace, Bool.or_eq_true, decide_eq_true_eq] at h2
    rcases h with hb | hb <;>
      (casesm* _ ∨ _ <;> subst_vars <;> exact absurd hb (by decide))
  · intro h1; subst h1; revert h; decide
  · intro h1; subst h1; revert h; decide
  · intro h1; subst h1; revert h; decide
  · by_contra hq
    have h2 : isIndentChar c = true := by simpa using hq
    simp only [isIndentChar, Bool.or_eq_true, decide_eq_true_eq] at h2
    rcases h with hb | hb <;>
      (casesm* _ ∨ _ <;> subst_vars <;> exact absurd hb (by decide))
  · intro h1; subst h1; revert h; decide

/-- Indentation characters are whitespace. -/
theorem indent_is_ws {c : Char} (h : isIndentChar c = true) :
    isPySpace c = true := by
  simp only [isIndentChar, Bool.or_eq_true, decide_eq_true_eq] at h
  rcases h with h1 | h1 <;> subst h1 <;> decide

/-! ### Groundwork: the whitespace-deletion relation -/

/-- `WsDel` is reflexive. -/
theorem wsdel_refl (l : List Char) : WsDel l l := by
  induction l with
  | nil => exact .nil
  | cons c t ih => exact .keep c ih

/-- `WsDel` composes along appends. -/
theorem WsDel.append_rel {u₁ v₁ u₂ v₂ : List Char}
    (h1 : WsDel u₁ v₁) (h2 : WsDel u₂ v₂) :
    WsDel (u₁ ++ u₂) (v₁ ++ v₂) := by
  induction h1 with
  | nil => simpa using h2
  | keep c h ih => exact .keep c ih
  | drop hc h ih => exact .drop hc ih

/-- An all-whitespace list deletes to the empty list. -/
theorem wsdel_to_nil {q : List Char} (h : q.all isPySpace = true) :
    WsDel q [] := by
  induction q with
  | nil => exact .nil
  | cons c t ih =>
    simp only [List.all_cons, Bool.and_eq_true] at h
    exact .drop h.1 (ih h.2)

/-- A split of the output of a deletion induces a split of its input. -/
theorem WsDel.split {u v : List Char} (h : WsDel u v) :
    ∀ a b, v = a ++ b →
      ∃ ua ub, u = ua ++ ub ∧ WsDel ua a ∧ WsDel ub b := by
  induction h with
  | nil =>
    intro a b hab
    have ha : a = [] := by
      cases a with
      | nil => rfl
      | cons x xs => simp at hab
    subst ha
    exact ⟨[], [], rfl, .nil, by simpa using hab ▸ WsDel.nil⟩
  | keep c h ih =>
    intro a b hab
    cases a with
    | nil =>
      refine ⟨[], _, rfl, .nil, ?_⟩
      rw [List.nil_append] at hab
      rw [← hab]
      exact .keep c h
    | cons a0 a' =>
      rw [List.cons_append] at hab
      injection hab with h1 h2
      subst h1
      obtain ⟨ua, ub, hu, ha, hb⟩ := ih a' b h2
      exact ⟨c :: ua, ub, by rw [hu]; rfl, .keep c ha, hb⟩
  | drop hc h ih =>
    intro a b hab
    obtain ⟨ua, ub, hu, ha, hb⟩ := ih a b hab
    exact ⟨_ :: ua, ub, by rw [hu]; rfl, .drop hc ha, hb⟩

/-- Characters of the output of a deletion come from the input. -/
theorem WsDel.mem_of {u v : List Char} {c : Char} (h : WsDel u v)
    (hc : c ∈ v) : c ∈ u := by
  induction h with
  | nil => exact hc
  | keep d h ih =>
    rcases List.mem_cons.1 hc with h1 | h1
    · exact h1 ▸ List.mem_cons_self _ _
    · exact List.mem_cons_of_mem _ (ih h1)
  | drop hd h ih => exact List.mem_cons_of_mem _ (ih hc)

/-- Deletion does not increase the newline count. -/
theorem WsDel.count_nl_le {u v : List Char} (h : WsDel u v) :
    v.count '\n' ≤ u.count '\n' := by
  induction h with
  | nil => exact le_refl _
  | keep c h ih => simp only [List.count_cons]; omega
  | drop hc h ih => simp only [List.count_cons]; omega

/-- The input of a deletion with all-whitespace output is all whitespace. -/
theorem WsDel.all_ws {u v : List Char} (h : WsDel u v)
    (hv : v.all isPySpace = true) : u.all isPySpace = true := by
  induction h with
  | nil => rfl
  | keep c h ih =>
    simp only [List.all_cons, Bool.and_eq_true] at hv ⊢
    exact ⟨hv.1, ih hv.2⟩
  | drop hc h ih =>
    simp only [List.all_cons, Bool.and_eq_true]
    exact ⟨hc, ih hv⟩

/-- Dropping the length of the `takeWhile` prefix is `dropWhile`. -/
theorem drop_length_takeWhile (p : Char → Bool) (l : List Char) :
    l.drop (l.takeWhile p).length = l.dropWhile p := by
  induction l with
  | nil => rfl
  | cons c t ih =>
    by_cases h : p c
    · simp only [List.takeWhile_cons_of_pos h, List.dropWhile_cons_of_pos h,
        List.length_cons, List.drop_succ_cons]
      exact ih
    · simp [List.takeWhile_cons_of_neg h, List.dropWhile_cons_of_neg h]

/-- `dropWhile` jumps over an all-satisfying prefix. -/
theorem dropWhile_append_all {p : Char → Bool} {s X : List Char}
    (hs : s.all p = true) : (s ++ X).dropWhile p = X.dropWhile p := by
  induction s with
  | nil => rfl
  | cons c t ih =>
    simp only [List.all_cons, Bool.and_eq_true] at hs
    simp only [List.cons_append, List.dropWhile_cons_of_pos hs.1]
    exact ih hs.2

/-- Shape of a successful `fixCmdStep`: the text splits as command word,
whitespace gap, brace, remainder. -/
theorem fixCmdStep_some_decomp {t w r3 : List Char}
    (h : fixCmdStep t = some (w, r3)) :
    ∃ s, t = w ++ s ++ '{' :: r3 ∧ w ≠ [] ∧ w.all isAsciiLetter = true ∧
      s.all isPySpace = true := by
  unfold fixCmdStep at h
  by_cases he : (t.takeWhile isAsciiLetter).isEmpty
  · simp [he] at h
  · simp only [he, if_false] at h
    rcases h' : (t.drop (t.takeWhile isAsciiLetter).length).dropWhile isPySpace
      with _ | ⟨c, r⟩ <;> rw [h'] at h
    · simp at h
    · by_cases hc : c = '{'
      · subst hc
        simp only [Option.some.injEq, Prod.mk.injEq] at h
        obtain ⟨hw, hr⟩ := h
        rw [drop_length_takeWhile] at h'
        refine ⟨(t.dropWhile isAsciiLetter).takeWhile isPySpace,
          ?_, ?_, ?_, ?_⟩
        · conv_lhs => rw [← List.takeWhile_append_dropWhile
            (p := isAsciiLetter) (l := t)]
          rw [List.append_assoc]
          congr 1
          conv_lhs => rw [← List.takeWhile_append_dropWhile
            (p := isPySpace) (l := t.dropWhile isAsciiLetter)]
          rw [h']
        · simpa [List.isEmpty_iff] using he
        · exact List.all_takeWhile
        · exact List.all_takeWhile
      · simp [hc] at h

/-- Converse: such a split makes `fixCmdStep` succeed with that word and
remainder. -/
theorem fixCmdStep_eq_some {t w s r3 : List Char}
    (ht : t = w ++ s ++ '{' :: r3) (hw : w ≠ [])
    (hwl : w.all isAsciiLetter = true) (hs : s.all isPySpace = true) :
    fixCmdStep t = some (w, r3) := by
  have htw : t.takeWhile isAsciiLetter = w := by
    rw [ht, List.append_assoc, List.takeWhile_append_of_pos
      (by intro a ha; exact (List.all_eq_true.1 hwl) a ha)]
    cases s with
    | nil =>
      have hbr : ¬ isAsciiLetter '{' = true := by decide
      simp [List.takeWhile_cons_of_neg hbr]
    | cons c s' =>
      simp only [List.all_cons, Bool.and_eq_true] at hs
      have hcl : ¬ isAsciiLetter c = true := by
        intro hq
        have := (letter_facts hq).1
        rw [this] at hs
        exact absurd hs.1 (by simp)
      simp [List.takeWhile_cons_of_neg hcl]
  have hne : w.isEmpty = false := by
    cases w with
    | nil => exact absurd rfl hw
    | cons a b => rfl
  have hdrop : t.drop w.length = s ++ '{' :: r3 := by
    rw [ht, List.append_assoc, List.drop_left]
  have hbr : ¬ isPySpace '{' = true := by decide
  unfold fixCmdStep
  rw [htw]
  simp only [hne, Bool.false_eq_true, if_false, hdrop,
    dropWhile_append_all hs, List.dropWhile_cons_of_neg hbr]

/-- `stripIndent` only deletes whitespace. -/
theorem wsdel_siAux (b : Bool) (l : List Char) : WsDel l (siAux b l) := by
  induction l generalizing b with
  | nil => exact .nil
  | cons c t ih =>
    simp only [siAux]
    split_ifs with h1 h2
    · refine .drop (indent_is_ws ?_) (ih true)
      simp only [Bool.and_eq_true] at h1
      exact h1.2
    · exact .keep c (ih true)
    · exact .keep c (ih false)

/-- `collapseSpaces` only deletes whitespace. -/
theorem wsdel_csAux (b : Bool) (l : List Char) : WsDel l (csAux b l) := by
  induction l generalizing b with
  | nil => exact .nil
  | cons c t ih =>
    by_cases h1 : c = ' '
    · subst h1
      cases b with
      | true => simpa [csAux] using WsDel.drop (by decide) (ih true)
      | false => simpa [csAux] using WsDel.keep ' ' (ih true)
    · simpa [csAux, h1] using WsDel.keep c (ih false)

/-- `crlfFix` only deletes whitespace. -/
theorem wsdel_crlfFix (l : List Char) : WsDel l (crlfFix l) := by
  induction l using crlfFix.induct with
  | case1 => exact .nil
  | case2 c => exact .keep c .nil
  | case3 c d t h ih =>
    obtain ⟨hc, hd⟩ := h
    subst hc
    subst hd
    simpa [crlfFix] using WsDel.drop (by decide) (.keep '\n' ih)
  | case4 c d t h ih =>
    simpa [crlfFix, if_neg h] using WsDel.keep c ih

/-- `fixCmds` only deletes whitespace. -/
theorem wsdel_fixCmds_bounded : ∀ (n : Nat) (l : List Char),
    l.length ≤ n → WsDel l (fixCmds l) := by
  intro n
  induction n with
  | zero =>
    intro l h
    have : l = [] := List.eq_nil_of_length_eq_zero (Nat.le_zero.mp h)
    subst this
    exact .nil
  | succ k ih =>
    intro l h
    cases l with
    | nil => exact .nil
    | cons c t =>
      by_cases hc : c = '\\'
      · subst hc
        cases hstep : fixCmdStep t with
        | none =>
          rw [fixCmds_cons_nostep hstep]
          exact .keep '\\' (ih t (by simpa using h))
        | some wr =>
          obtain ⟨w, r3⟩ := wr
          rw [fixCmds_cons_step hstep]
          obtain ⟨s, hts, hwne, hwl, hsws⟩ := fixCmdStep_some_decomp hstep
          refine .keep '\\' ?_
          rw [hts, List.append_assoc]
          have h2 : WsDel (s ++ '{' :: r3) ([] ++ '{' :: fixCmds r3) :=
            WsDel.append_rel (wsdel_to_nil hsws)
              (.keep '{' (ih r3 (by
                have := fixCmdStep_length hstep
                simp only [List.length_cons] at h
                omega)))
          simpa using WsDel.append_rel (wsdel_refl w) h2
      · rw [fixCmds_cons_other hc]
        exact .keep c (ih t (by simpa using h))

/-- `fixCmds` only deletes whitespace (wrapper). -/
theorem wsdel_fixCmds (l : List Char) : WsDel l (fixCmds l) :=
  wsdel_fixCmds_bounded l.length l (le_refl _)

/-- Deletions compose. -/
theorem WsDel.trans {u v w : List Char} (h1 : WsDel u v) (h2 : WsDel v w) :
    WsDel u w := by
  induction h1 generalizing w with
  | nil =>
    cases h2
    exact .nil
  | keep c h ih =>
    cases h2 with
    | keep _ h2' => exact .keep c (ih h2')
    | drop hc h2' => exact .drop hc (ih h2')
  | drop hc h ih => exact .drop hc (ih h2)

/-- Dropping a leading whitespace run is a deletion. -/
theorem wsdel_dropWhile (l : List Char) :
    WsDel l (l.dropWhile isPySpace) := by
  induction l with
  | nil => exact .nil
  | cons c t ih =>
    by_cases h : isPySpace c
    · simpa [List.dropWhile_cons_of_pos h] using WsDel.drop h ih
    · simp only [List.dropWhile_cons_of_neg h]
      exact .keep c (wsdel_refl t)

/-- The leading-stripped list splits into the fully stripped list and a
trailing whitespace run. -/
theorem dropWhile_eq_pyStrip_append (l : List Char) :
    l.dropWhile isPySpace =
      pyStrip l ++ ((l.dropWhile isPySpace).reverse.takeWhile
        isPySpace).reverse := by
  have h3 := List.takeWhile_append_dropWhile (p := isPySpace)
    (l := (l.dropWhile isPySpace).reverse)
  have h4 := congrArg List.reverse h3
  simp only [List.reverse_append, List.reverse_reverse] at h4
  conv_lhs => rw [← h4]
  rfl

/-- `pyStrip` only deletes whitespace. -/
theorem wsdel_pyStrip (l : List Char) : WsDel l (pyStrip l) := by
  refine (wsdel_dropWhile l).trans ?_
  rw [dropWhile_eq_pyStrip_append l]
  have h6 : WsDel (((l.dropWhile isPySpace).reverse.takeWhile
      isPySpace).reverse) [] := by
    apply wsdel_to_nil
    simp only [List.all_reverse]
    exact List.all_takeWhile
  simpa using WsDel.append_rel (wsdel_refl (pyStrip l)) h6

/-- A `takeWhile (· ≠ '\n')` stops inside a block already holding a
newline. -/
theorem takeWhile_ne_append_of_mem {A B : List Char} (h : '\n' ∈ A) :
    (A ++ B).takeWhile (fun c => c ≠ '\n') =
      A.takeWhile (fun c => c ≠ '\n') := by
  rw [List.takeWhile_append]
  split_ifs with hlen
  · exfalso
    have heq : A.takeWhile (fun c => c ≠ '\n') = A :=
      (List.takeWhile_prefix _).eq_of_length hlen
    have hall := List.all_takeWhile (l := A) (p := fun c => c ≠ '\n')
    rw [heq] at hall
    have h2 := List.all_eq_true.1 hall '\n' h
    simp at h2
  · rfl

/-- A list with a newline splits at its first newline. -/
theorem dropWhile_count_pos {w : List Char} (h : 1 ≤ w.count '\n') :
    ∃ rest, w = w.takeWhile (fun c => c ≠ '\n') ++ '\n' :: rest ∧
      w.count '\n' = rest.count '\n' + 1 := by
  induction w with
  | nil => simp at h
  | cons c t ih =>
    by_cases hc : c = '\n'
    · subst hc
      refine ⟨t, ?_, ?_⟩
      · simp [List.takeWhile_cons_of_neg (by simp :
          ¬ (fun c => decide (c ≠ '\n')) '\n' = true)]
      · simp [List.count_cons]
    · have h1 : 1 ≤ t.count '\n' := by
        simpa [List.count_cons, hc] using h
      obtain ⟨rest, hsplit, hcnt⟩ := ih h1
      refine ⟨rest, ?_, ?_⟩
      · rw [List.takeWhile_cons_of_pos (by simpa using hc),
          List.cons_append, ← hsplit]
      · simpa [List.count_cons, hc] using hcnt

/-- The trailing newline-free segment ignores anything preceding a
newline. -/
theorem tail_seg_cons {u : List Char} (c : Char) (h : '\n' ∈ u) :
    ((c :: u).reverse.takeWhile (fun x => x ≠ '\n')).reverse =
      (u.reverse.takeWhile (fun x => x ≠ '\n')).reverse := by
  rw [List.reverse_cons,
    takeWhile_ne_append_of_mem (by simpa using h)]

/-- An all-whitespace block with a newline deletes to a single newline
followed by its trailing newline-free segment. -/
theorem wsdel_run_tail : ∀ (u : List Char), u.all isPySpace = true →
    1 ≤ u.count '\n' →
    WsDel u ('\n' :: (u.reverse.takeWhile (fun x => x ≠ '\n')).reverse) := by
  intro u
  induction u with
  | nil => intro _ h; simp at h
  | cons c t ih =>
    intro hws hcnt
    simp only [List.all_cons, Bool.and_eq_true] at hws
    by_cases hc : c = '\n'
    · subst hc
      by_cases h1 : 1 ≤ t.count '\n'
      · rw [tail_seg_cons '\n' (List.count_pos_iff.1 (by omega))]
        exact .drop (by decide) (ih hws.2 h1)
      · have h0 : '\n' ∉ t := by
          intro hmem
          exact h1 (List.count_pos_iff.2 hmem)
        have h2 : (('\n' :: t).reverse.takeWhile
            (fun x => x ≠ '\n')).reverse = t := by
          rw [List.reverse_cons, List.takeWhile_append_of_pos (by
            intro a ha
            have : a ∈ t := by simpa using ha
            simp only [ne_eq, decide_eq_true_eq]
            intro hq
            exact h0 (hq ▸ this))]
          simp
        rw [h2]
        exact .keep '\n' (wsdel_refl t)
    · have h1 : 1 ≤ t.count '\n' := by
        simpa [List.count_cons, hc] using hcnt
      rw [tail_seg_cons c (List.count_pos_iff.1 (by omega))]
      exact .drop hws.1 (ih hws.2 h1)

/-- `collapseBlankRun` only deletes whitespace (the two newlines it keeps
are the first and last of the collapsed middle). -/
theorem wsdel_collapseBlankRun {w : List Char}
    (hws : w.all isPySpace = true) : WsDel w (collapseBlankRun w) := by
  unfold collapseBlankRun
  split_ifs with h3
  · have hc1 : 1 ≤ w.count '\n' := by omega
    obtain ⟨rest, hsplit, hcnt⟩ := dropWhile_count_pos hc1
    conv_lhs => rw [hsplit]
    have hrest_ws : rest.all isPySpace = true := by
      have := hws
      rw [hsplit] at this
      simp only [List.all_append, List.all_cons, Bool.and_eq_true] at this
      exact this.2.2
    have hrestcnt : 1 ≤ rest.count '\n' := by omega
    have hmemr : '\n' ∈ rest.reverse := by
      rw [List.mem_reverse]
      exact List.count_pos_iff.1 (by omega)
    have hpost : (w.reverse.takeWhile (fun x => x ≠ '\n')).reverse =
        (rest.reverse.takeWhile (fun x => x ≠ '\n')).reverse := by
      conv_lhs => rw [hsplit]
      rw [List.reverse_append, List.reverse_cons, List.append_assoc,
        takeWhile_ne_append_of_mem hmemr]
    rw [hpost]
    have hdd : ("\n\n".data : List Char) = ['\n', '\n'] := rfl
    rw [List.append_assoc, hdd]
    exact WsDel.append_rel (wsdel_refl _)
      (.keep '\n' (wsdel_run_tail rest hrest_ws hrestcnt))
  · exact wsdel_refl w

/-- `cbAux` only deletes whitespace. -/
theorem wsdel_cbAux : ∀ (l acc : List Char), acc.all isPySpace = true →
    WsDel (acc.reverse ++ l) (cbAux acc l) := by
  intro l
  induction l with
  | nil =>
    intro acc hacc
    simpa using wsdel_collapseBlankRun
      (by simpa [List.all_reverse] using hacc)
  | cons c t ih =>
    intro acc hacc
    simp only [cbAux]
    by_cases h : isPySpace c
    · rw [if_pos h]
      have h2 := ih (c :: acc) (by simp [h, hacc])
      simpa [List.append_assoc] using h2
    · rw [if_neg h]
      have hl := wsdel_collapseBlankRun
        (w := acc.reverse) (by simpa [List.all_reverse] using hacc)
      have hr : WsDel (c :: t) (c :: cbAux [] t) := by
        refine .keep c ?_
        simpa using ih [] rfl
      exact WsDel.append_rel hl hr

/-- `collapseBlankLines` only deletes whitespace. -/
theorem wsdel_collapseBlankLines (l : List Char) :
    WsDel l (collapseBlankLines l) := by
  simpa using wsdel_cbAux l [] rfl

/-- A newline-free `takeWhile (· ≠ '\n')` block counts zero newlines. -/
theorem count_takeWhile_ne_nil (u : List Char) :
    (u.takeWhile (fun x => x ≠ '\n')).count '\n' = 0 := by
  rw [List.count_eq_zero]
  intro hmem
  have hall := List.all_takeWhile (l := u) (p := fun x => x ≠ '\n')
  have := List.all_eq_true.1 hall '\n' hmem
  simp at this

/-- The collapsed run holds at most two newlines. -/
theorem count_collapseBlankRun_le (w : List Char) :
    (collapseBlankRun w).count '\n' ≤ 2 := by
  unfold collapseBlankRun
  split_ifs with h3
  · have h1 := count_takeWhile_ne_nil w
    have h2 := count_takeWhile_ne_nil w.reverse
    rw [List.count_append, List.count_append, List.count_reverse, h1, h2]
    decide
  · omega

/-- A list with at most two newlines satisfies `NoTriple` outright. -/
theorem noTriple_of_count_le {u : List Char} (h : u.count '\n' ≤ 2) :
    NoTriple u := by
  intro a w b hdecomp _
  have := congrArg (List.count '\n') hdecomp
  simp only [List.count_append] at this
  omega

/-- `NoTriple` restricts to infixes. -/
theorem noTriple_seg {u v : List Char} (hu : NoTriple u)
    (h : ∃ p q, u = p ++ v ++ q) : NoTriple v := by
  obtain ⟨p, q, hpq⟩ := h
  intro a w b hdecomp hw
  exact hu (p ++ a) w (b ++ q)
    (by simp [hpq, hdecomp, List.append_assoc]) hw

/-- An all-whitespace infix of `A ++ c :: B` with `c` non-whitespace lies
inside `A` or inside `B`. -/
theorem ws_infix_split {A B w : List Char} {c : Char}
    (hc : isPySpace c = false) (hw : w.all isPySpace = true)
    (h : ∃ a b, A ++ c :: B = a ++ w ++ b) :
    (∃ a b, A = a ++ w ++ b) ∨ (∃ a b, B = a ++ w ++ b) := by
  obtain ⟨a, b, hab⟩ := h
  by_cases hcase : a.length + w.length ≤ A.length
  · left
    have hp1 : (a ++ w) <+: (A ++ c :: B) := ⟨b, by rw [← hab]⟩
    have hp2 : A <+: (A ++ c :: B) := ⟨c :: B, rfl⟩
    have hp3 : (a ++ w) <+: A :=
      List.prefix_of_prefix_length_le hp1 hp2 (by simpa using hcase)
    obtain ⟨rest, hrest⟩ := hp3
    exact ⟨a, rest, by rw [← hrest, List.append_assoc]⟩
  · right
    push_neg at hcase
    have hge : A.length + 1 ≤ a.length := by
      by_contra hlt
      push_neg at hlt
      have hidx : (A ++ c :: B)[A.length]? = some c := by
        rw [List.getElem?_append_right (le_refl A.length)]
        simp
      have hidx2 : (a ++ (w ++ b))[A.length]? =
          w[A.length - a.length]? := by
        rw [List.getElem?_append_right (by omega : a.length ≤ A.length)]
        exact List.getElem?_append_left (by omega)
      have hcw : w[A.length - a.length]? = some c := by
        rw [← hidx2, ← List.append_assoc, ← hab, hidx]
      have hmem : c ∈ w := by
        obtain ⟨hlt2, hEq⟩ := List.getElem?_eq_some_iff.1 hcw
        exact hEq ▸ List.getElem_mem hlt2
      have h2 := List.all_eq_true.1 hw c hmem
      simp only [decide_eq_true_eq] at h2
      rw [h2] at hc
      exact absurd hc (by simp)
    have hp1 : (A ++ [c]) <+: (A ++ c :: B) := ⟨B, by simp⟩
    have hp2 : a <+: (A ++ c :: B) :=
      ⟨w ++ b, by rw [← List.append_assoc, ← hab]⟩
    have hp3 : (A ++ [c]) <+: a :=
      List.prefix_of_prefix_length_le hp1 hp2 (by simpa using hge)
    obtain ⟨a2, ha2⟩ := hp3
    refine ⟨a2, b, ?_⟩
    have hab2 : (A ++ [c]) ++ B = (A ++ [c]) ++ (a2 ++ w ++ b) := by
      calc (A ++ [c]) ++ B = A ++ c :: B := by simp
        _ = a ++ w ++ b := hab
        _ = (A ++ [c]) ++ (a2 ++ w ++ b) := by
            rw [← ha2]; simp [List.append_assoc]
    exact List.append_cancel_left hab2

/-- `NoTriple` transfers backwards along whitespace deletion. -/
theorem NoTriple.wsdel {u v : List Char} (hu : NoTriple u)
    (h : WsDel u v) : NoTriple v := by
  intro a w b hv hw
  obtain ⟨ua, urest, hsplit, _, hdrest⟩ :=
    h.split a (w ++ b) (by rw [hv, List.append_assoc])
  obtain ⟨uw, ub, hsplit2, hdw, _⟩ := hdrest.split w b rfl
  have h1 : uw.all isPySpace = true := hdw.all_ws hw
  have h2 := hdw.count_nl_le
  have h3 := hu ua uw ub (by rw [hsplit, hsplit2, List.append_assoc]) h1
  omega

/-- Every state of the `cbAux` scan produces a `NoTriple` text. -/
theorem noTriple_cbAux : ∀ (t acc : List Char), NoTriple (cbAux acc t) := by
  intro t
  induction t with
  | nil =>
    intro acc
    show NoTriple (collapseBlankRun acc.reverse)
    exact noTriple_of_count_le (count_collapseBlankRun_le _)
  | cons c t ih =>
    intro acc
    simp only [cbAux]
    by_cases h : isPySpace c = true
    · rw [if_pos h]
      exact ih _
    · rw [if_neg h]
      intro a w b hdecomp hw
      have hc : isPySpace c = false := by
        cases hq : isPySpace c
        · rfl
        · exact absurd hq h
      rcases ws_infix_split hc hw ⟨a, b, hdecomp⟩ with ⟨p, q, hpq⟩ | ⟨p, q, hpq⟩
      · have h1 := count_collapseBlankRun_le acc.reverse
        have h2 := congrArg (List.count '\n') hpq
        simp only [List.count_append] at h2
        omega
      · exact ih [] p w q hpq hw

/-- The blank-line collapse establishes `NoTriple`. -/
theorem noTriple_collapseBlankLines (l : List Char) :
    NoTriple (collapseBlankLines l) :=
  noTriple_cbAux l []

/-- A run holding at most two newlines is left alone. -/
theorem collapseBlankRun_eq_self {w : List Char} (h : w.count '\n' ≤ 2) :
    collapseBlankRun w = w := by
  unfold collapseBlankRun
  rw [if_neg (by omega)]

/-- On a `NoTriple` text the `cbAux` scan is the identity. -/
theorem cbAux_eq : ∀ (t acc : List Char), acc.all isPySpace = true →
    NoTriple (acc.reverse ++ t) → cbAux acc t = acc.reverse ++ t := by
  intro t
  induction t with
  | nil =>
    intro acc hacc hnt
    show collapseBlankRun acc.reverse = _
    rw [collapseBlankRun_eq_self
      (hnt [] acc.reverse [] (by simp) (by simpa [List.all_reverse] using hacc))]
    simp
  | cons c t ih =>
    intro acc hacc hnt
    simp only [cbAux]
    by_cases h : isPySpace c = true
    · rw [if_pos h]
      have hr := ih (c :: acc) (by simp [h, hacc])
        (by simpa [List.append_assoc] using hnt)
      rw [hr]
      simp
    · rw [if_neg h]
      have h1 : acc.reverse.count '\n' ≤ 2 :=
        hnt [] acc.reverse (c :: t) (by simp)
          (by simpa [List.all_reverse] using hacc)
      rw [collapseBlankRun_eq_self h1]
      have h2 : cbAux [] t = t := by
        refine ih [] rfl ?_
        simpa using noTriple_seg (v := t) hnt
          ⟨acc.reverse ++ [c], [], by simp [List.append_assoc]⟩
      rw [h2]

/-- On a `NoTriple` text the blank-line collapse is the identity. -/
theorem collapseBlankLines_eq_self {l : List Char} (h : NoTriple l) :
    collapseBlankLines l = l := by
  show cbAux [] l = l
  simpa using cbAux_eq l [] rfl (by simpa using h)

/-- `NoIndentPair` survives dropping the head character. -/
theorem noIndentPair_tail {c : Char} {t : List Char}
    (h : NoIndentPair (c :: t)) : NoIndentPair t := by
  intro a d b hab
  exact h (c :: a) d b (by rw [hab]; rfl)

/-- `NoIndentPair` restricts to infixes. -/
theorem noIndentPair_seg {u v : List Char} (hu : NoIndentPair u)
    (h : ∃ p q, u = p ++ v ++ q) : NoIndentPair v := by
  obtain ⟨p, q, hpq⟩ := h
  intro a c b hab
  exact hu (p ++ a) c (b ++ q) (by simp [hpq, hab, List.append_assoc])

/-- A line-start scan never emits an indentation character first. -/
theorem siAux_true_head : ∀ (t : List Char) {d : Char} {t' : List Char},
    siAux true t = d :: t' → isIndentChar d = false := by
  intro t
  induction t with
  | nil => intro d t' h; simp [siAux] at h
  | cons c t ih =>
    intro d t' h
    simp only [siAux] at h
    by_cases hc : isIndentChar c = true
    · rw [if_pos (by simp [hc])] at h
      exact ih h
    · rw [if_neg (by simpa using hc)] at h
      have hcf : isIndentChar c = false := by
        cases hq : isIndentChar c
        · rfl
        · exact absurd hq hc
      by_cases hn : c = '\n'
      · rw [if_pos hn] at h
        injection h with h1 _
        rw [← h1, hn]
        decide
      · rw [if_neg hn] at h
        injection h with h1 _
        rw [← h1]
        exact hcf

/-- Every state of the indentation-stripping scan produces a
`NoIndentPair` text. -/
theorem noIndentPair_siAux : ∀ (l : List Char) (b : Bool),
    NoIndentPair (siAux b l) := by
  intro l
  induction l with
  | nil =>
    intro b a d b' hab
    simp [siAux] at hab
  | cons c t ih =>
    intro b a d b' hab
    simp only [siAux] at hab
    by_cases hbc : (b && isIndentChar c) = true
    · rw [if_pos hbc] at hab
      exact ih true a d b' hab
    · rw [if_neg hbc] at hab
      by_cases hn : c = '\n'
      · rw [if_pos hn] at hab
        cases a with
        | nil =>
          injection hab with h1 h2
          exact siAux_true_head t h2
        | cons e a' =>
          injection hab with _ h2
          exact ih true a' d b' h2
      · rw [if_neg hn] at hab
        cases a with
        | nil =>
          injection hab with h1 _
          exact absurd h1 hn
        | cons e a' =>
          injection hab with _ h2
          exact ih false a' d b' h2

/-- The indentation strip establishes `NoIndentPair`. -/
theorem noIndentPair_stripIndent (l : List Char) :
    NoIndentPair (stripIndent l) :=
  noIndentPair_siAux l true

/-- On a `NoIndentPair` text whose head is not an indentation character the
indentation scan is the identity. -/
theorem siAux_eq : ∀ (l : List Char) (b : Bool), NoIndentPair l →
    (b = true → ∀ d t', l = d :: t' → isIndentChar d = false) →
    siAux b l = l := by
  intro l
  induction l with
  | nil => intro b _ _; rfl
  | cons c t ih =>
    intro b hni hhead
    simp only [siAux]
    have hci : (b && isIndentChar c) = false := by
      cases hb : b
      · simp
      · simp only [Bool.true_and]
        exact hhead hb c t rfl
    rw [if_neg (by simp [hci])]
    by_cases hn : c = '\n'
    · rw [if_pos hn]
      have ht : siAux true t = t := by
        refine ih true (noIndentPair_tail hni) ?_
        intro _ d t' hdt
        exact hni [] d t' (by rw [hn, hdt]; rfl)
      rw [ht]
    · rw [if_neg hn]
      rw [ih false (noIndentPair_tail hni) (by intro h; simp at h)]

/-- On a `NoIndentPair` text with a non-indentation head the indentation
strip is the identity. -/
theorem stripIndent_eq_self {l : List Char} (hni : NoIndentPair l)
    (hhead : ∀ d t', l = d :: t' → isIndentChar d = false) :
    stripIndent l = l :=
  siAux_eq l true hni (fun _ => hhead)

/-- Splitting an append at the first occurrence of a character absent from
the left part. -/
theorem append_eq_cons_split : ∀ (u : List Char) {r a z : List Char}
    {ch : Char}, u ++ r = a ++ ch :: z → ch ∉ u →
    ∃ a2, a = u ++ a2 ∧ r = a2 ++ ch :: z := by
  intro u
  induction u with
  | nil => intro r a z ch h _; exact ⟨a, rfl, h⟩
  | cons d u' ih =>
    intro r a z ch h hmem
    cases a with
    | nil =>
      injection h with h1 _
      subst h1
      exact absurd (List.mem_cons_self d u') hmem
    | cons e a' =>
      injection h with h1 h2
      subst h1
      obtain ⟨a2, ha, hr⟩ := ih h2 (fun hm => hmem (List.mem_cons_of_mem _ hm))
      refine ⟨a2, ?_, hr⟩
      rw [ha]
      rfl

/-- The command-spacing rewrite keeps the head character. -/
theorem fixCmds_head : ∀ (t : List Char), (fixCmds t).head? = t.head? := by
  intro t
  cases t with
  | nil => rfl
  | cons c t' =>
    by_cases hc : c = '\\'
    · subst hc
      cases hstep : fixCmdStep t' with
      | none =>
        rw [fixCmds_cons_nostep hstep]
        rfl
      | some wr =>
        obtain ⟨w, r3⟩ := wr
        rw [fixCmds_cons_step hstep]
        rfl
    · rw [fixCmds_cons_other hc]
      rfl

/-- A backslash-free prefix of the command-spacing output is a verbatim
copy of an input prefix. -/
theorem fixCmds_no_bs_prefix : ∀ (u : List Char) {r t : List Char},
    fixCmds t = u ++ r → '\\' ∉ u →
    ∃ t2, t = u ++ t2 ∧ fixCmds t2 = r := by
  intro u
  induction u with
  | nil => intro r t h _; exact ⟨t, rfl, h⟩
  | cons d u' ih =>
    intro r t h hmem
    cases t with
    | nil =>
      have h0 : ([] : List Char) = (d :: u') ++ r := h
      simp at h0
    | cons c t' =>
      by_cases hc : c = '\\'
      · subst hc
        cases hstep : fixCmdStep t' with
        | none =>
          rw [fixCmds_cons_nostep hstep] at h
          injection h with h1 _
          subst h1
          exact absurd (List.mem_cons_self _ _) hmem
        | some wr =>
          obtain ⟨w, r3⟩ := wr
          rw [fixCmds_cons_step hstep] at h
          injection h with h1 _
          subst h1
          exact absurd (List.mem_cons_self _ _) hmem
      · rw [fixCmds_cons_other hc] at h
        injection h with h1 h2
        subst h1
        obtain ⟨t2, ht, hf⟩ := ih h2 (fun hm => hmem (List.mem_cons_of_mem _ hm))
        refine ⟨t2, ?_, hf⟩
        rw [ht]
        rfl

/-- Matching a letter-word/whitespace/brace shape against a
letter-word/brace shape forces the words to agree and the gap to be
empty. -/
theorem letters_ws_brace_eq : ∀ (w w0 : List Char) {s v r : List Char},
    w.all isAsciiLetter = true → w0.all isAsciiLetter = true →
    s.all isPySpace = true →
    w ++ s ++ '{' :: v = w0 ++ '{' :: r → w = w0 ∧ s = [] := by
  intro w
  induction w with
  | nil =>
    intro w0 s v r _ hw0 hs h
    cases w0 with
    | nil =>
      cases s with
      | nil => exact ⟨rfl, rfl⟩
      | cons d s' =>
        injection h with h1 _
        have h2 := List.all_eq_true.1 hs d (List.mem_cons_self d s')
        rw [h1] at h2
        exact absurd h2 (by decide)
    | cons e w0' =>
      cases s with
      | nil =>
        injection h with h1 _
        have h3 := List.all_eq_true.1 hw0 e (List.mem_cons_self e w0')
        rw [← h1] at h3
        exact absurd h3 (by decide)
      | cons d s' =>
        injection h with h1 _
        have h2 := List.all_eq_true.1 hs d (List.mem_cons_self d s')
        have h3 := List.all_eq_true.1 hw0 e (List.mem_cons_self e w0')
        rw [h1] at h2
        rw [(letter_facts h3).1] at h2
        exact absurd h2 (by simp)
  | cons c w' ih =>
    intro w0 s v r hw hw0 hs h
    simp only [List.all_cons, Bool.and_eq_true] at hw
    cases w0 with
    | nil =>
      injection h with h1 _
      exact absurd h1 (letter_facts hw.1).2.2.2.1
    | cons e w0' =>
      injection h with h1 h2
      subst h1
      simp only [List.all_cons, Bool.and_eq_true] at hw0
      obtain ⟨hw'', hs''⟩ := ih w0' hw.2 hw0.2 hs h2
      refine ⟨?_, hs''⟩
      rw [hw'']

/-- The command-spacing rewrite preserves `NoIndentPair` (it deletes only
the gap between a command word and its brace, creating no
newline-indentation adjacency). -/
theorem noIndentPair_fixCmds_bounded : ∀ (n : Nat) (l : List Char),
    l.length ≤ n → NoIndentPair l → NoIndentPair (fixCmds l) := by
  intro n
  induction n with
  | zero =>
    intro l h _
    have hl : l = [] := List.eq_nil_of_length_eq_zero (Nat.le_zero.mp h)
    subst hl
    intro a d b hab
    have h0 : ([] : List Char) = a ++ '\n' :: d :: b := hab
    simp at h0
  | succ k ih =>
    intro l hlen hni
    cases l with
    | nil =>
      intro a d b hab
      have h0 : ([] : List Char) = a ++ '\n' :: d :: b := hab
      simp at h0
    | cons c t =>
      have htk : t.length ≤ k := by
        simp only [List.length_cons] at hlen
        omega
      by_cases hc : c = '\\'
      · subst hc
        cases hstep : fixCmdStep t with
        | none =>
          rw [fixCmds_cons_nostep hstep]
          intro a d b hab
          cases a with
          | nil =>
            injection hab with h1 _
            exact absurd h1 (by decide)
          | cons e a' =>
            injection hab with _ h2
            exact ih t htk (noIndentPair_tail hni) a' d b h2
        | some wr =>
          obtain ⟨w, r3⟩ := wr
          rw [fixCmds_cons_step hstep]
          obtain ⟨s, ht, hwne, hwl, hs⟩ := fixCmdStep_some_decomp hstep
          have hr3len : r3.length < t.length := fixCmdStep_length hstep
          have hnir3 : NoIndentPair r3 := by
            intro a d b hab
            refine hni ('\\' :: w ++ s ++ '{' :: a) d b ?_
            rw [ht, hab]
            simp [List.append_assoc]
          have hfix := ih r3 (by omega) hnir3
          intro a d b hab
          cases a with
          | nil =>
            injection hab with h1 _
            exact absurd h1 (by decide)
          | cons e a' =>
            injection hab with _ h2
            have hnl : '\n' ∉ w ++ ['{'] := by
              intro hm
              rcases List.mem_append.1 hm with hm | hm
              · exact absurd rfl
                  (letter_facts (List.all_eq_true.1 hwl '\n' hm)).2.2.1
              · simp at hm
            have h2' : (w ++ ['{']) ++ fixCmds r3 = a' ++ '\n' :: d :: b := by
              simpa [List.append_assoc] using h2
            obtain ⟨a2, _, hr⟩ := append_eq_cons_split (w ++ ['{']) h2' hnl
            exact hfix a2 d b hr
      · rw [fixCmds_cons_other hc]
        intro a d b hab
        cases a with
        | nil =>
          injection hab with h1 h2
          have hhd := fixCmds_head t
          rw [h2] at hhd
          cases t with
          | nil => simp at hhd
          | cons d0 t'' =>
            have hd : d0 = d := by simpa using hhd.symm
            subst hd
            exact hni [] d0 t'' (by rw [h1]; rfl)
        | cons e a' =>
          injection hab with _ h2
          exact ih t htk (noIndentPair_tail hni) a' d b h2

/-- The command-spacing rewrite preserves `NoIndentPair`. -/
theorem noIndentPair_fixCmds {l : List Char} (h : NoIndentPair l) :
    NoIndentPair (fixCmds l) :=
  noIndentPair_fixCmds_bounded l.length l (le_refl _) h

/-- `NoCmdGap` survives dropping the head character. -/
theorem noCmdGap_tail {c : Char} {t : List Char} (h : NoCmdGap (c :: t)) :
    NoCmdGap t := by
  intro a w s v hab hwne hwl hsw
  exact h (c :: a) w s v (by rw [hab]; rfl) hwne hwl hsw

/-- The command-spacing rewrite establishes `NoCmdGap`. -/
theorem noCmdGap_fixCmds_bounded : ∀ (n : Nat) (l : List Char),
    l.length ≤ n → NoCmdGap (fixCmds l) := by
  intro n
  induction n with
  | zero =>
    intro l h
    have hl : l = [] := List.eq_nil_of_length_eq_zero (Nat.le_zero.mp h)
    subst hl
    intro a w s v hab _ _ _
    have h0 : ([] : List Char) = a ++ '\\' :: (w ++ s ++ '{' :: v) := hab
    simp at h0
  | succ k ih =>
    intro l hlen
    cases l with
    | nil =>
      intro a w s v hab _ _ _
      have h0 : ([] : List Char) = a ++ '\\' :: (w ++ s ++ '{' :: v) := hab
      simp at h0
    | cons c t =>
      have htk : t.length ≤ k := by
        simp only [List.length_cons] at hlen
        omega
      by_cases hc : c = '\\'
      · subst hc
        cases hstep : fixCmdStep t with
        | none =>
          rw [fixCmds_cons_nostep hstep]
          intro a w s v hab hwne hwl hsw
          cases a with
          | nil =>
            injection hab with _ h2
            have hnb : '\\' ∉ w ++ s ++ ['{'] := by
              intro hm
              rcases List.mem_append.1 hm with hm | hm
              · rcases List.mem_append.1 hm with hm | hm
                · exact absurd rfl
                    (letter_facts (List.all_eq_true.1 hwl '\\' hm)).2.1
                · have h3 := List.all_eq_true.1 hsw '\\' hm
                  exact absurd h3 (by decide)
              · simp at hm
            have h2' : fixCmds t = (w ++ s ++ ['{']) ++ v := by
              simpa [List.append_assoc] using h2
            obtain ⟨t2, ht2, _⟩ :=
              fixCmds_no_bs_prefix (w ++ s ++ ['{']) h2' hnb
            have hteq : t = w ++ s ++ '{' :: t2 := by
              rw [ht2]
              simp [List.append_assoc]
            have hsome := fixCmdStep_eq_some hteq hwne hwl hsw
            rw [hstep] at hsome
            simp at hsome
          | cons e a' =>
            injection hab with _ h2
            exact ih t htk a' w s v h2 hwne hwl hsw
        | some wr =>
          obtain ⟨w0, r3⟩ := wr
          rw [fixCmds_cons_step hstep]
          obtain ⟨s0, ht, hw0ne, hw0l, hs0⟩ := fixCmdStep_some_decomp hstep
          have hr3len : r3.length < t.length := fixCmdStep_length hstep
          intro a w s v hab hwne hwl hsw
          cases a with
          | nil =>
            injection hab with _ h2
            exact (letters_ws_brace_eq w w0 hwl hw0l hsw h2.symm).2
          | cons e a' =>
            injection hab with _ h2
            have hnb : '\\' ∉ w0 ++ ['{'] := by
              intro hm
              rcases List.mem_append.1 hm with hm | hm
              · exact absurd rfl
                  (letter_facts (List.all_eq_true.1 hw0l '\\' hm)).2.1
              · simp at hm
            have h2' : (w0 ++ ['{']) ++ fixCmds r3 =
                a' ++ '\\' :: (w ++ s ++ '{' :: v) := by
              simpa [List.append_assoc] using h2
            obtain ⟨a2, _, hr⟩ := append_eq_cons_split (w0 ++ ['{']) h2' hnb
            exact ih r3 (by omega) a2 w s v hr hwne hwl hsw
      · rw [fixCmds_cons_other hc]
        intro a w s v hab hwne hwl hsw
        cases a with
        | nil =>
          injection hab with h1 _
          exact absurd h1 hc
        | cons e a' =>
          injection hab with _ h2
          exact ih t htk a' w s v h2 hwne hwl hsw

/-- The command-spacing rewrite establishes `NoCmdGap`. -/
theorem noCmdGap_fixCmds (l : List Char) : NoCmdGap (fixCmds l) :=
  noCmdGap_fixCmds_bounded l.length l (le_refl _)

/-- On a `NoCmdGap` text the command-spacing rewrite is the identity. -/
theorem fixCmds_eq_self_bounded : ∀ (n : Nat) (l : List Char),
    l.length ≤ n → NoCmdGap l → fixCmds l = l := by
  intro n
  induction n with
  | zero =>
    intro l h _
    have hl : l = [] := List.eq_nil_of_length_eq_zero (Nat.le_zero.mp h)
    subst hl
    rfl
  | succ k ih =>
    intro l hlen hncg
    cases l with
    | nil => rfl
    | cons c t =>
      have htk : t.length ≤ k := by
        simp only [List.length_cons] at hlen
        omega
      by_cases hc : c = '\\'
      · subst hc
        cases hstep : fixCmdStep t with
        | none => rw [fixCmds_cons_nostep hstep, ih t htk (noCmdGap_tail hncg)]
        | some wr =>
          obtain ⟨w0, r3⟩ := wr
          rw [fixCmds_cons_step hstep]
          obtain ⟨s0, ht, hw0ne, hw0l, hs0⟩ := fixCmdStep_some_decomp hstep
          have hs0nil : s0 = [] :=
            hncg [] w0 s0 r3 (by rw [ht]; rfl) hw0ne hw0l hs0
          have hncgr3 : NoCmdGap r3 := by
            intro a w s v hab hwne hwl hsw
            refine hncg ('\\' :: w0 ++ s0 ++ '{' :: a) w s v ?_ hwne hwl hsw
            rw [ht, hab]
            simp [List.append_assoc]
          have hr3len : r3.length < t.length := fixCmdStep_length hstep
          rw [ih r3 (by omega) hncgr3, ht, hs0nil]
          simp
      · rw [fixCmds_cons_other hc, ih t htk (noCmdGap_tail hncg)]

/-- On a `NoCmdGap` text the command-spacing rewrite is the identity. -/
theorem fixCmds_eq_self {l : List Char} (h : NoCmdGap l) : fixCmds l = l :=
  fixCmds_eq_self_bounded l.length l (le_refl _) h

/-- The space-collapsing scan deletes exactly spaces preceded by a kept
space. -/
theorem spdel_csAux : ∀ (l : List Char) (b : Bool),
    SpDel b l (csAux b l) := by
  intro l
  induction l with
  | nil => intro b; exact SpDel.nil b
  | cons c t ih =>
    intro b
    simp only [csAux]
    by_cases hc : c = ' '
    · subst hc
      rw [if_pos rfl]
      cases b with
      | true =>
        rw [if_pos rfl]
        exact SpDel.drop (ih true)
      | false =>
        rw [if_neg (by simp)]
        exact SpDel.keep false ' ' (ih true)
    · rw [if_neg hc]
      refine SpDel.keep b c ?_
      have hb2 : (c == ' ') = false := by simp [hc]
      rw [hb2]
      exact ih false

/-- A space deletion starting from the empty list produces the empty
list. -/
theorem SpDel.nil_inv {b : Bool} {v : List Char} (h : SpDel b [] v) :
    v = [] := by
  cases h
  rfl

/-- Inverting a space deletion at a kept character: the input starts with
deleted spaces followed by that character. -/
theorem SpDel.cons_inv : ∀ {u : List Char} {b : Bool} {v : List Char}
    {c : Char}, SpDel b u (c :: v) →
    ∃ sp u2, u = sp ++ c :: u2 ∧ (∀ d ∈ sp, d = ' ') ∧
      (sp ≠ [] → b = true) ∧ SpDel (c == ' ') u2 v := by
  intro u
  induction u with
  | nil => intro b v c h; cases h
  | cons e u' ih =>
    intro b v c h
    cases h with
    | keep _ _ h' =>
      exact ⟨[], u', rfl, by simp, by simp, h'⟩
    | drop h' =>
      obtain ⟨sp, u2, hu, hsp, _, hs⟩ := ih h'
      refine ⟨' ' :: sp, u2, ?_, ?_, fun _ => rfl, hs⟩
      · rw [hu]
        rfl
      · intro d hd
        rcases List.mem_cons.1 hd with hd | hd
        · exact hd
        · exact hsp d hd

/-- Splitting a space deletion at an output decomposition: the input
splits so that the part over the output prefix holds only prefix
characters and deleted spaces. -/
theorem SpDel.split_all {b : Bool} {u v : List Char} (h : SpDel b u v) :
    ∀ p q, v = p ++ q → ∃ b2 up uq, u = up ++ uq ∧ SpDel b2 uq q ∧
      (∀ d ∈ up, d ∈ p ∨ d = ' ') ∧ (p ≠ [] → up ≠ []) := by
  induction h with
  | nil b =>
    intro p q hpq
    obtain ⟨hp, hq⟩ := List.append_eq_nil.mp hpq.symm
    subst hp
    subst hq
    exact ⟨true, [], [], rfl, SpDel.nil true, by simp, by simp⟩
  | keep b' c h' ih =>
    rename_i u0 v0
    intro p q hpq
    cases p with
    | nil =>
      have hq : q = c :: v0 := by simpa using hpq.symm
      exact ⟨b', [], c :: u0, rfl,
        by rw [hq]; exact SpDel.keep b' c h', by simp, by simp⟩
    | cons e p' =>
      injection hpq with h1 h2
      subst h1
      obtain ⟨b2, up, uq, hu, hs, hmem, _⟩ := ih p' q h2
      refine ⟨b2, c :: up, uq, by rw [hu]; rfl, hs, ?_, by simp⟩
      intro d hd
      rcases List.mem_cons.1 hd with hd | hd
      · subst hd
        exact Or.inl (List.mem_cons_self _ _)
      · rcases hmem d hd with hm | hm
        · exact Or.inl (List.mem_cons_of_mem _ hm)
        · exact Or.inr hm
  | drop h' ih =>
    rename_i u0 v0
    intro p q hpq
    obtain ⟨b2, up, uq, hu, hs, hmem, _⟩ := ih p q hpq
    refine ⟨b2, ' ' :: up, uq, by rw [hu]; rfl, hs, ?_, by simp⟩
    intro d hd
    rcases List.mem_cons.1 hd with hd | hd
    · exact Or.inr hd
    · exact hmem d hd

/-- A space-free output block is copied verbatim from the input when the
scan is not inside a space run. -/
theorem SpDel.copy_prefix : ∀ (w : List Char) {u z : List Char},
    SpDel false u (w ++ z) → (∀ d ∈ w, d ≠ ' ') →
    ∃ u3, u = w ++ u3 ∧ SpDel false u3 z := by
  intro w
  induction w with
  | nil => intro u z h _; exact ⟨u, rfl, h⟩
  | cons c w' ih =>
    intro u z h hd
    rw [List.cons_append] at h
    cases h with
    | keep _ _ h' =>
      have hbeq : (c == ' ') = false := by
        simp [hd c (List.mem_cons_self c w')]
      rw [hbeq] at h'
      obtain ⟨u3, hu, hs⟩ :=
        ih h' (fun d hm => hd d (List.mem_cons_of_mem _ hm))
      exact ⟨u3, by rw [hu]; rfl, hs⟩

/-- The space collapse preserves `NoIndentPair`: a kept character after a
newline was adjacent to it already in the input. -/
theorem noIndentPair_csAux {l : List Char} (hni : NoIndentPair l) :
    NoIndentPair (csAux false l) := by
  intro a c b hab
  have h0 := spdel_csAux l false
  rw [hab] at h0
  obtain ⟨b2, up, uq, hl, hs1, _, _⟩ :=
    h0.split_all a ('\n' :: c :: b) rfl
  obtain ⟨sp, u2, huq, _, _, hs2⟩ := hs1.cons_inv
  have hnl : ('\n' == ' ') = false := by decide
  rw [hnl] at hs2
  obtain ⟨sp2, u3, hu2, _, hflag, _⟩ := hs2.cons_inv
  have hsp2nil : sp2 = [] := by
    by_contra hne
    exact absurd (hflag hne) (by simp)
  subst hsp2nil
  exact hni (up ++ sp) c u3
    (by rw [hl, huq, hu2]; simp [List.append_assoc])

/-- The space collapse preserves `NoCmdGap`: a gap in the output pulls
back to a nonempty whitespace gap in the input. -/
theorem noCmdGap_csAux {l : List Char} (hncg : NoCmdGap l) :
    NoCmdGap (csAux false l) := by
  intro a w s v hab hwne hwl hsw
  have h0 := spdel_csAux l false
  rw [hab] at h0
  obtain ⟨b2, up, uq, hl, hs1, _, _⟩ :=
    h0.split_all a ('\\' :: (w ++ s ++ '{' :: v)) rfl
  obtain ⟨sp, u2, huq, _, _, hs2⟩ := hs1.cons_inv
  have hbs : ('\\' == ' ') = false := by decide
  rw [hbs] at hs2
  have hwns : ∀ d ∈ w, d ≠ ' ' := fun d hm =>
    (letter_facts (List.all_eq_true.1 hwl d hm)).2.2.2.2.2
  have hs2' : SpDel false u2 (w ++ (s ++ '{' :: v)) := by
    simpa [List.append_assoc] using hs2
  obtain ⟨u3, hu2, hs3⟩ := SpDel.copy_prefix w hs2' hwns
  obtain ⟨b3, us, u4, hu3, hs4, husmem, husne⟩ :=
    hs3.split_all s ('{' :: v) rfl
  obtain ⟨sp4, u5, hu4, hsp4, _, _⟩ := hs4.cons_inv
  have hgap : us ++ sp4 = [] := by
    refine hncg (up ++ sp) w (us ++ sp4) u5 ?_ hwne hwl ?_
    · rw [hl, huq, hu2, hu3, hu4]
      simp [List.append_assoc]
    · rw [List.all_append, Bool.and_eq_true]
      refine ⟨List.all_eq_true.2 ?_, List.all_eq_true.2 ?_⟩
      · intro d hd
        rcases husmem d hd with hm | hm
        · exact List.all_eq_true.1 hsw d hm
        · rw [hm]
          decide
      · intro d hd
        rw [hsp4 d hd]
        decide
  rcases List.append_eq_nil.mp hgap with ⟨husnil, -⟩
  by_contra hsne
  exact husne hsne husnil

/-- A space-run scan never emits a space first. -/
theorem csAux_true_head : ∀ (t : List Char) {d : Char} {t' : List Char},
    csAux true t = d :: t' → d ≠ ' ' := by
  intro t
  induction t with
  | nil => intro d t' h; simp [csAux] at h
  | cons c t ih =>
    intro d t' h
    simp only [csAux] at h
    by_cases hc : c = ' '
    · rw [if_pos hc, if_pos trivial] at h
      exact ih h
    · rw [if_neg hc] at h
      injection h with h1 _
      rw [← h1]
      exact hc

/-- Every state of the space-collapsing scan produces a `NoTwoSpace`
text. -/
theorem noTwoSpace_csAux : ∀ (l : List Char) (b : Bool),
    NoTwoSpace (csAux b l) := by
  intro l
  induction l with
  | nil => intro b a b' hab; simp [csAux] at hab
  | cons c t ih =>
    intro b a b' hab
    simp only [csAux] at hab
    by_cases hc : c = ' '
    · rw [if_pos hc] at hab
      cases b with
      | true =>
        rw [if_pos rfl] at hab
        exact ih true a b' hab
      | false =>
        rw [if_neg (by simp)] at hab
        cases a with
        | nil =>
          injection hab with _ h2
          exact csAux_true_head t h2 rfl
        | cons e a' =>
          injection hab with _ h2
          exact ih true a' b' h2
    · rw [if_neg hc] at hab
      cases a with
      | nil =>
        injection hab with h1 _
        exact hc h1
      | cons e a' =>
        injection hab with _ h2
        exact ih false a' b' h2

/-- On a `NoTwoSpace` text whose head is not a space (when mid-run) the
space-collapsing scan is the identity. -/
theorem csAux_eq : ∀ (l : List Char) (b : Bool), NoTwoSpace l →
    (b = true → ∀ t', l ≠ ' ' :: t') → csAux b l = l := by
  intro l
  induction l with
  | nil => intro b _ _; rfl
  | cons c t ih =>
    intro b hnts hhead
    simp only [csAux]
    by_cases hc : c = ' '
    · subst hc
      have hb : b = false := by
        cases b with
        | false => rfl
        | true => exact absurd rfl (hhead rfl t)
      subst hb
      rw [if_pos rfl, if_neg (by simp)]
      have ht : csAux true t = t := by
        refine ih true ?_ ?_
        · intro a b' hab
          exact hnts (' ' :: a) b' (by rw [hab]; rfl)
        · intro _ t' ht'
          exact hnts [] t' (by rw [ht']; rfl)
      rw [ht]
    · rw [if_neg hc]
      have ht : csAux false t = t :=
        ih false (fun a b' hab => hnts (c :: a) b' (by rw [hab]; rfl))
          (by intro h; simp at h)
      rw [ht]

/-- `NoTwoSpace` restricts to infixes. -/
theorem noTwoSpace_seg {u v : List Char} (hu : NoTwoSpace u)
    (h : ∃ p q, u = p ++ v ++ q) : NoTwoSpace v := by
  obtain ⟨p, q, hpq⟩ := h
  intro a b hab
  exact hu (p ++ a) (b ++ q) (by simp [hpq, hab, List.append_assoc])

/-- `NoCmdGap` restricts to infixes. -/
theorem noCmdGap_seg {u v : List Char} (hu : NoCmdGap u)
    (h : ∃ p q, u = p ++ v ++ q) : NoCmdGap v := by
  obtain ⟨p, q, hpq⟩ := h
  intro a w s z hab hwne hwl hsw
  exact hu (p ++ a) w s (z ++ q)
    (by simp [hpq, hab, List.append_assoc]) hwne hwl hsw

/-- The stripped text sits inside the original as a contiguous block. -/
theorem pyStrip_seg (l : List Char) : ∃ p q, l = p ++ pyStrip l ++ q := by
  refine ⟨l.takeWhile isPySpace,
    ((l.dropWhile isPySpace).reverse.takeWhile isPySpace).reverse, ?_⟩
  calc l = l.takeWhile isPySpace ++ l.dropWhile isPySpace :=
        (List.takeWhile_append_dropWhile isPySpace l).symm
    _ = l.takeWhile isPySpace ++ (pyStrip l ++
          ((l.dropWhile isPySpace).reverse.takeWhile isPySpace).reverse) := by
        rw [← dropWhile_eq_pyStrip_append l]
    _ = l.takeWhile isPySpace ++ pyStrip l ++
          ((l.dropWhile isPySpace).reverse.takeWhile isPySpace).reverse := by
        rw [List.append_assoc]

/-- The head surviving a whitespace `dropWhile` is not whitespace. -/
theorem dropWhile_head_not : ∀ (l : List Char) {d : Char} {t' : List Char},
    l.dropWhile isPySpace = d :: t' → isPySpace d = false := by
  intro l
  induction l with
  | nil => intro d t' h; simp at h
  | cons c t ih =>
    intro d t' h
    by_cases hc : isPySpace c = true
    · rw [List.dropWhile_cons_of_pos hc] at h
      exact ih h
    · rw [List.dropWhile_cons_of_neg hc] at h
      injection h with h1 _
      rw [← h1]
      cases hq : isPySpace c
      · rfl
      · exact absurd hq hc

/-- A nonempty stripped text starts with a non-whitespace character. -/
theorem pyStrip_head {l : List Char} {d : Char} {t' : List Char}
    (h : pyStrip l = d :: t') : isPySpace d = false := by
  have h2 := dropWhile_eq_pyStrip_append l
  rw [h] at h2
  exact dropWhile_head_not l (by rw [h2]; rfl)

/-- A whitespace `dropWhile` with a protected head is the identity. -/
theorem dropWhile_eq_self_of_head {u : List Char}
    (h : ∀ d t', u = d :: t' → isPySpace d = false) :
    u.dropWhile isPySpace = u := by
  cases u with
  | nil => rfl
  | cons d t => rw [List.dropWhile_cons_of_neg (by simp [h d t rfl])]

/-- `strip()` is idempotent. -/
theorem pyStrip_idem (l : List Char) : pyStrip (pyStrip l) = pyStrip l := by
  have h1 : (pyStrip l).dropWhile isPySpace = pyStrip l :=
    dropWhile_eq_self_of_head (fun d t' h => pyStrip_head h)
  show (((pyStrip l).dropWhile isPySpace).reverse.dropWhile
    isPySpace).reverse = pyStrip l
  rw [h1]
  have h2 : (pyStrip l).reverse =
      ((l.dropWhile isPySpace).reverse).dropWhile isPySpace := by
    show ((((l.dropWhile isPySpace).reverse).dropWhile
      isPySpace).reverse).reverse = _
    rw [List.reverse_reverse]
  rw [h2]
  have h3 : (((l.dropWhile isPySpace).reverse).dropWhile
        isPySpace).dropWhile isPySpace =
      ((l.dropWhile isPySpace).reverse).dropWhile isPySpace :=
    dropWhile_eq_self_of_head (fun d t' h => dropWhile_head_not _ h)
  rw [h3, ← h2, List.reverse_reverse]

/-- On a carriage-return-free text the CRLF rewrite is the identity. -/
theorem crlfFix_eq_self : ∀ (l : List Char), '\r' ∉ l → crlfFix l = l := by
  intro l
  induction l using crlfFix.induct with
  | case1 => intro _; rfl
  | case2 c => intro _; rfl
  | case3 c d t h ih =>
    intro hm
    obtain ⟨hc, _⟩ := h
    subst hc
    exact absurd (List.mem_cons_self _ _) hm
  | case4 c d t h ih =>
    intro hm
    show crlfFix (c :: d :: t) = c :: d :: t
    rw [show crlfFix (c :: d :: t) = c :: crlfFix (d :: t) from by
      simp [crlfFix, if_neg h]]
    rw [ih (fun hmm => hm (List.mem_cons_of_mem _ hmm))]

/-- On a backtick-free text the fence pattern fails at the head. -/
theorem dropLit_bt_none {s : List Char} (h : '\x60' ∉ s) :
    dropLit "```".data s = none := by
  cases s with
  | nil => rfl
  | cons c t =>
    have hc : c ≠ '\x60' := fun he => h (he ▸ List.mem_cons_self c t)
    show dropLit ('\x60' :: "``".data) (c :: t) = none
    simp only [dropLit]
    rw [if_neg hc]

/-- On a backtick-free text the fence stripping is the identity. -/
theorem strip_markdown_fences_eq_self {x : List Char}
    (h : '\x60' ∉ x) : strip_markdown_fences x = x := by
  have hps : '\x60' ∉ pyStrip x := fun hm => h ((wsdel_pyStrip x).mem_of hm)
  have hd : dropLit "```".data (pyStrip x) = none := dropLit_bt_none hps
  have hsf : stripFencesFull (pyStrip x) = none := by
    unfold stripFencesFull
    rw [hd]
  simp [strip_markdown_fences, hsf, hd]

/-- C9 (counterexample): the cleaner is not idempotent.  On `"a\r\r\nb"`
the single left-to-right non-overlapping CRLF pass turns `\r\r\n` into
`\r\n`, which the second run rewrites again. -/
theorem clean_idempotent_counterexample :
    clean_latex_content (clean_latex_content "a\r\r\nb".data) ≠
      clean_latex_content "a\r\r\nb".data := by
  decide

/-- C9 (amended): on every input free of backticks and carriage returns
the cleaner is idempotent — each pass of the second run is the identity on
the normal form the first run established. -/
theorem clean_idempotent_on_fence_crlf_free {x : List Char}
    (hb : '\x60' ∉ x) (hr : '\r' ∉ x) :
    clean_latex_content (clean_latex_content x) = clean_latex_content x := by
  have hF : strip_markdown_fences x = x := strip_markdown_fences_eq_self hb
  have hWB : WsDel x (collapseBlankLines x) := wsdel_collapseBlankLines x
  have hWI : WsDel (collapseBlankLines x)
      (stripIndent (collapseBlankLines x)) :=
    wsdel_siAux true (collapseBlankLines x)
  have hWC : WsDel (stripIndent (collapseBlankLines x))
      (fixCmds (stripIndent (collapseBlankLines x))) := wsdel_fixCmds _
  have hWS : WsDel (fixCmds (stripIndent (collapseBlankLines x)))
      (collapseSpaces (fixCmds (stripIndent (collapseBlankLines x)))) :=
    wsdel_csAux false _
  have hWP : WsDel
      (collapseSpaces (fixCmds (stripIndent (collapseBlankLines x))))
      (pyStrip (collapseSpaces (fixCmds (stripIndent
        (collapseBlankLines x))))) :=
    wsdel_pyStrip _
  have hr5 : '\r' ∉
      collapseSpaces (fixCmds (stripIndent (collapseBlankLines x))) :=
    fun hm => hr (hWB.mem_of (hWI.mem_of (hWC.mem_of (hWS.mem_of hm))))
  have hcr5 : crlfFix (collapseSpaces (fixCmds (stripIndent
      (collapseBlankLines x)))) = collapseSpaces (fixCmds (stripIndent
      (collapseBlankLines x))) := crlfFix_eq_self _ hr5
  have hy : clean_latex_content x = pyStrip (collapseSpaces (fixCmds
      (stripIndent (collapseBlankLines x)))) := by
    unfold clean_latex_content fix_common_issues
    rw [hF, hcr5]
  have hWxy : WsDel x (pyStrip (collapseSpaces (fixCmds (stripIndent
      (collapseBlankLines x))))) :=
    hWB.trans (hWI.trans (hWC.trans (hWS.trans hWP)))
  have hyb : '\x60' ∉ pyStrip (collapseSpaces (fixCmds (stripIndent
      (collapseBlankLines x)))) := fun hm => hb (hWxy.mem_of hm)
  have hyr : '\r' ∉ pyStrip (collapseSpaces (fixCmds (stripIndent
      (collapseBlankLines x)))) := fun hm => hr (hWxy.mem_of hm)
  have hNT : NoTriple (pyStrip (collapseSpaces (fixCmds (stripIndent
      (collapseBlankLines x))))) :=
    (noTriple_collapseBlankLines x).wsdel
      (hWI.trans (hWC.trans (hWS.trans hWP)))
  have hNI : NoIndentPair (pyStrip (collapseSpaces (fixCmds (stripIndent
      (collapseBlankLines x))))) :=
    noIndentPair_seg (noIndentPair_csAux (noIndentPair_fixCmds
      (noIndentPair_stripIndent (collapseBlankLines x))))
      (pyStrip_seg _)
  have hNC : NoCmdGap (pyStrip (collapseSpaces (fixCmds (stripIndent
      (collapseBlankLines x))))) :=
    noCmdGap_seg (noCmdGap_csAux (noCmdGap_fixCmds
      (stripIndent (collapseBlankLines x)))) (pyStrip_seg _)
  have hNS : NoTwoSpace (pyStrip (collapseSpaces (fixCmds (stripIndent
      (collapseBlankLines x))))) :=
    noTwoSpace_seg (noTwoSpace_csAux
      (fixCmds (stripIndent (collapseBlankLines x))) false) (pyStrip_seg _)
  have e1 : strip_markdown_fences (pyStrip (collapseSpaces (fixCmds
      (stripIndent (collapseBlankLines x))))) = pyStrip (collapseSpaces
      (fixCmds (stripIndent (collapseBlankLines x)))) :=
    strip_markdown_fences_eq_self hyb
  have e2 : collapseBlankLines (pyStrip (collapseSpaces (fixCmds
      (stripIndent (collapseBlankLines x))))) = pyStrip (collapseSpaces
      (fixCmds (stripIndent (collapseBlankLines x)))) :=
    collapseBlankLines_eq_self hNT
  have e3 : stripIndent (pyStrip (collapseSpaces (fixCmds
      (stripIndent (collapseBlankLines x))))) = pyStrip (collapseSpaces
      (fixCmds (stripIndent (collapseBlankLines x)))) := by
    refine stripIndent_eq_self hNI ?_
    intro d t' hdt
    cases hq : isIndentChar d with
    | false => rfl
    | true => exact absurd (indent_is_ws hq) (by simp [pyStrip_head hdt])
  have e4 : fixCmds (pyStrip (collapseSpaces (fixCmds
      (stripIndent (collapseBlankLines x))))) = pyStrip (collapseSpaces
      (fixCmds (stripIndent (collapseBlankLines x)))) :=
    fixCmds_eq_self hNC
  have e5 : collapseSpaces (pyStrip (collapseSpaces (fixCmds
      (stripIndent (collapseBlankLines x))))) = pyStrip (collapseSpaces
      (fixCmds (stripIndent (collapseBlankLines x)))) :=
    csAux_eq _ false hNS (by intro h; simp at h)
  have e6 : crlfFix (pyStrip (collapseSpaces (fixCmds
      (stripIndent (collapseBlankLines x))))) = pyStrip (collapseSpaces
      (fixCmds (stripIndent (collapseBlankLines x)))) :=
    crlfFix_eq_self _ hyr
  rw [hy]
  unfold clean_latex_content fix_common_issues
  rw [e1, e2, e3, e4, e5, e6, pyStrip_idem]

/-- The amended C9 statement applied at a concrete input holding every
pipeline trigger (a blank-line run, indentation, command gap, space run). -/
theorem clean_idempotent_on_fence_crlf_free_witness :
    '\x60' ∉ " \\section {A}\n\n\n\n  two  spaces ".data ∧
    '\r' ∉ " \\section {A}\n\n\n\n  two  spaces ".data ∧
    clean_latex_content (clean_latex_content
        " \\section {A}\n\n\n\n  two  spaces ".data) =
      clean_latex_content " \\section {A}\n\n\n\n  two  spaces ".data :=
  ⟨by decide, by decide,
    clean_idempotent_on_fence_crlf_free (by decide) (by decide)⟩

end ResumeTex
